import Mathlib

/-!
Verification of the link normalization engine of the `wiki-scripts`
repository (`link-checker.py`).  The pipeline of rewrite rules over
wikilink nodes is embedded shallowly: each Python method of `LinkChecker`
becomes a Lean function of the same name, the mutable state (the wikilink
node and its parsed `Title`) is threaded explicitly, and the two lookup
tables built at construction time become fields of a `Config` record.
-/

namespace WikiScripts

/-! ## Basic string machinery (Python `str` helpers over `List Char`) -/

/-- Python `str.lstrip()` on a character list: drop leading whitespace. -/
def lstripChars (l : List Char) : List Char := l.dropWhile Char.isWhitespace

/-- Python `str.rstrip()` on a character list: drop trailing whitespace. -/
def rstripChars (l : List Char) : List Char := (l.reverse.dropWhile Char.isWhitespace).reverse

/-- Python `str.lstrip()`. -/
def lstrip (s : String) : String := ⟨lstripChars s.data⟩

/-- Python `str.rstrip()`. -/
def rstrip (s : String) : String := ⟨rstripChars s.data⟩

/-- Python `str.lower()`. -/
def strLower (s : String) : String := ⟨s.data.map Char.toLower⟩

/-- Characters treated as interchangeable separators by title
canonicalization: whitespace and the underscore. -/
def isWsU (c : Char) : Bool := c.isWhitespace || c = '_'

/-- Drop leading separator characters. -/
def dropWsU (l : List Char) : List Char := l.dropWhile isWsU

/-- Trim separator characters from both ends. -/
def trimWsU (l : List Char) : List Char := ((dropWsU l.reverse).reverse).dropWhile isWsU

/-- Squash every maximal run of separator characters to a single space. -/
def squashWsU : List Char → List Char
  | [] => []
  | [c] => if isWsU c then [' '] else [c]
  | a :: b :: rest =>
    if isWsU a && isWsU b then squashWsU (b :: rest)
    else (if isWsU a then ' ' else a) :: squashWsU (b :: rest)

/-- Fold the case of the first character upwards. -/
def upperFirst : List Char → List Char
  | [] => []
  | c :: rest => c.toUpper :: rest

/-- Modelled from the spec: `canonicalize` of `ws.parser_helpers.title`
(not under `src/`).  Per §4.1 it is a pure function that folds the first
character's case, converts whitespace/underscore separators per the
wiki's equivalence rule and trims. -/
def canonicalize (s : String) : String := ⟨upperFirst (squashWsU (trimWsU s.data))⟩

/-- Split a character list at the first occurrence of `c`; the second
component is `none` when `c` does not occur. -/
def splitAtChar (c : Char) : List Char → List Char × Option (List Char)
  | [] => ([], none)
  | a :: rest =>
    if a = c then ([], some rest)
    else
      let r := splitAtChar c rest
      (a :: r.1, r.2)

/-! ## Title model

Modelled from the spec: `ws.parser_helpers.title.Title` is not under
`src/`; §3 gives its fields (interwiki prefix, namespace, pagename,
fullpagename, sectionname) and §4.1 its permissive parsing contract. -/

/-- Parsed decomposition of a raw link-target string (spec §3).  The
field `iw` models the `iwprefix`/`iw` attribute; `ns` the namespace;
`sectionname` is the fragment after `#`, kept uninterpreted, with `""`
standing for an absent fragment exactly as the empty string is falsy in
the Python truth tests. -/
structure Title where
  iw : String
  ns : String
  pagename : String
  sectionname : String
deriving DecidableEq, Repr

/-- Namespace + pagename in canonical join; empty for section-relative
links (spec §3). -/
def Title.fullpagename (t : Title) : String :=
  if t.pagename = "" then ""
  else if t.ns = "" then t.pagename
  else t.ns ++ ":" ++ t.pagename

/-- Static configuration of one `LinkChecker` run: the interactive flag,
the two lookup tables built in `__init__`, and the wiki's namespace /
interwiki / interlanguage prefix inventories consulted by the title
parser and the interlanguage skip. -/
structure Config where
  interactive : Bool
  redirects : List (String × String)
  displaytitles : List (String × String)
  namespaces : List String
  iwPrefixes : List String
  interlanguage : List String
deriving DecidableEq, Repr

/-- Python `dict.get` over an association list. -/
def lookupStr (m : List (String × String)) (k : String) : Option String :=
  (m.find? (fun p => p.1 = k)).map (fun p => p.2)

/-- Modelled from the spec: constructing `Title(api, raw)`.  Splits off
the fragment after the first `#`, then detects an interwiki or namespace
prefix before the first `:`; the pagename is canonicalized, the section
is kept as uninterpreted text (spec §3, §4.1). -/
def parseTitle (cfg : Config) (raw : String) : Title :=
  let p := splitAtChar '#' raw.data
  let sec : String := ⟨p.2.getD []⟩
  match splitAtChar ':' p.1 with
  | (pre, some rest) =>
    let preC := canonicalize ⟨pre⟩
    if strLower preC ∈ cfg.iwPrefixes then
      { iw := strLower preC, ns := "", pagename := canonicalize ⟨rest⟩, sectionname := sec }
    else if preC ∈ cfg.namespaces then
      { iw := "", ns := preC, pagename := canonicalize ⟨rest⟩, sectionname := sec }
    else
      { iw := "", ns := "", pagename := canonicalize ⟨p.1⟩, sectionname := sec }
  | (_, none) =>
    { iw := "", ns := "", pagename := canonicalize ⟨p.1⟩, sectionname := sec }

/-! ## Document model

Modelled from the spec: the external markup parser (§6) exposes
`parse(text) → tree`, an ordered sequence of link nodes with mutable
`title`/`text`, sibling text access, and `str(tree) → text`.  A document
is a list of nodes; a wikilink serializes as `[[title]]` or
`[[title|text]]`. -/

/-- A wikilink node: mutable raw target `title` and optional display
`text` (spec §3, Link Node). -/
structure Wikilink where
  title : String
  text : Option String
deriving DecidableEq, Repr

/-- A node of the parsed document: plain text or a wikilink. -/
inductive Node where
  | text : String → Node
  | link : String → Option String → Node
deriving DecidableEq, Repr

/-- Find the first occurrence of the two-character pattern `cc`; returns
the part before it and the part after it. -/
def findPair (c : Char) : List Char → Option (List Char × List Char)
  | [] => none
  | [_] => none
  | a :: b :: rest =>
    if a = c ∧ b = c then some ([], rest)
    else
      match findPair c (b :: rest) with
      | some (pre, post) => some (a :: pre, post)
      | none => none

/-- Build a link node from the characters between `[[` and `]]`,
splitting at the first `|`. -/
def mkLinkNode (inner : List Char) : Node :=
  match splitAtChar '|' inner with
  | (t, some x) => Node.link ⟨t⟩ (some ⟨x⟩)
  | (t, none) => Node.link ⟨t⟩ none

/-- Fueled worker for the document scanner; the fuel only bounds the
recursion depth and is immaterial once it is at least the input length
(`parseNodesF_congr`). -/
def parseNodesF : Nat → List Char → List Node
  | 0, l => if l = [] then [] else [Node.text ⟨l⟩]
  | f + 1, l =>
    match findPair '[' l with
    | none => if l = [] then [] else [Node.text ⟨l⟩]
    | some (pre, rest) =>
      match findPair ']' rest with
      | none => if l = [] then [] else [Node.text ⟨l⟩]
      | some (inner, post) =>
        (if pre = [] then [] else [Node.text ⟨pre⟩]) ++ mkLinkNode inner :: parseNodesF f post

/-- Modelled from the spec: `parse(text) → tree` of the external markup
parser (§6).  Scans for `[[`, then for the earliest closing `]]`; text
outside complete links is kept verbatim as text nodes. -/
def parseNodes (l : List Char) : List Node := parseNodesF l.length l

/-- Parse a raw document into its node list. -/
def mwparse (s : String) : List Node := parseNodes s.data

/-- Serialize one node back to characters. -/
def serializeNodeChars : Node → List Char
  | Node.text s => s.data
  | Node.link t none => '[' :: '[' :: (t.data ++ [']', ']'])
  | Node.link t (some x) => '[' :: '[' :: (t.data ++ '|' :: (x.data ++ [']', ']']))

/-- Modelled from the spec: `str(tree)` of the external markup parser
(§6): concatenation of the serialized nodes. -/
def serializeWikicode (ns : List Node) : String := ⟨(ns.map serializeNodeChars).flatten⟩

/-- Plain text of a document once all link syntax is stripped:
concatenation of the non-link content. -/
def stripLinks (s : String) : String :=
  ⟨((mwparse s).map (fun n => match n with
      | Node.text t => t.data
      | Node.link _ _ => [])).flatten⟩

/-! ## The rewrite rules (`LinkChecker` methods, `src/link-checker.py`)

Each Python method mutates the wikilink node (and sometimes re-parses
the `Title` object via `title.parse`); here every rule returns the new
`(Wikilink, Title)` pair, the input pair being returned unchanged
whenever the Python method falls through or returns early. -/

/-- `LinkChecker.check_trivial` (lines 55-68): replace `[[Foo|foo]]`
with `[[foo]]` when the canonical forms coincide; the `Title` object is
not touched by the source, so it is not part of the state here. -/
def check_trivial (wl : Wikilink) : Wikilink :=
  match wl.text with
  | some x =>
    if canonicalize wl.title = canonicalize x then { title := x, text := none } else wl
  | none => wl

/-- `LinkChecker.check_relative` (lines 70-94): on page `srcpage`, turn
`[[Foo#Bar]]` into `[[#Bar]]` whenever `Foo` redirects to or equals the
page itself. -/
def check_relative (cfg : Config) (wl : Wikilink) (title : Title) (srcpage : String) :
    Wikilink × Title :=
  if title.iw ≠ "" ∨ title.sectionname = "" then (wl, title)
  else
    let t2 : Title :=
      match lookupStr cfg.redirects title.fullpagename with
      | some target => { parseTitle cfg target with sectionname := title.sectionname }
      | none => title
    if canonicalize srcpage = t2.fullpagename then
      let newT := "#" ++ t2.sectionname
      ({ wl with title := newT }, parseTitle cfg newT)
    else (wl, title)

/-- `LinkChecker.check_redirect_exact` (lines 96-131): replace
`[[foo|bar]]` with `[[bar]]` if `foo` and `bar` point to the same page
after resolving redirects. -/
def check_redirect_exact (cfg : Config) (wl : Wikilink) (title : Title) :
    Wikilink × Title :=
  match wl.text with
  | none => (wl, title)
  | some xt =>
    let text := parseTitle cfg xt
    if title.sectionname ≠ "" ∨ text.sectionname ≠ "" then (wl, title)
    else
      match lookupStr cfg.redirects title.fullpagename,
            lookupStr cfg.redirects text.fullpagename with
      | some t1, some t2 =>
        if t1 = t2 then ({ title := xt, text := none }, parseTitle cfg xt)
        else (wl, title)
      | some t1, none =>
        if t1 = text.fullpagename then ({ title := xt, text := none }, parseTitle cfg xt)
        else (wl, title)
      | none, some t2 =>
        if t2 = title.fullpagename then ({ title := xt, text := none }, parseTitle cfg xt)
        else (wl, title)
      | none, none => (wl, title)

/-- `LinkChecker.check_redirect_capitalization` (lines 133-159): in
interactive mode only, avoid a redirect whose target differs from the
link target only in capitalization; the hard-coded `Wpa supplicant`
pagename is exempted (line 147). -/
def check_redirect_capitalization (cfg : Config) (wl : Wikilink) (title : Title) :
    Wikilink × Title :=
  if cfg.interactive = false then (wl, title)
  else if title.pagename = "Wpa supplicant" then (wl, title)
  else if title.fullpagename ≠ "" then
    match lookupStr cfg.redirects title.fullpagename with
    | some target =>
      if strLower target = strLower title.fullpagename then
        let newT :=
          if title.sectionname ≠ "" then target ++ "#" ++ title.sectionname else target
        ({ wl with title := newT }, parseTitle cfg newT)
      else (wl, title)
    | none => (wl, title)
  else (wl, title)

/-- `LinkChecker.check_displaytitle` (lines 161-199): in interactive
mode, rewrite the target to the page's DISPLAYTITLE value; a target
absent from the table is a broken link, reported through the returned
warning list (the model of `logger.warning`). -/
def check_displaytitle (cfg : Config) (wl : Wikilink) (title : Title) :
    Wikilink × Title × List String :=
  if cfg.interactive = false then (wl, title, [])
  else if wl.text.isSome then (wl, title, [])
  else if title.iw ≠ "" then (wl, title, [])
  else if title.fullpagename = "" then (wl, title, [])
  else
    match lookupStr cfg.displaytitles title.fullpagename with
    | none => (wl, title, ["wikilink to non-existing page: [[" ++ wl.title ++ "]]"])
    | some d =>
      if title.ns = "Category" then (wl, title, [])
      else if title.pagename = "Wpa supplicant" then (wl, title, [])
      else
        let new := if title.sectionname ≠ "" then d ++ "#" ++ title.sectionname else d
        if wl.title.drop 1 ≠ new.drop 1 then
          ({ wl with title := new }, parseTitle cfg new, [])
        else (wl, title, [])

/-- `LinkChecker.collapse_whitespace_pipe` (lines 209-218): strip
whitespace around the pipe. -/
def collapse_whitespace_pipe (wl : Wikilink) : Wikilink :=
  match wl.text with
  | some x => { title := rstrip wl.title, text := some (lstrip x) }
  | none => wl

/-- Python list indexing `nodes[i]` with negative-index wraparound, as
performed by `Wikicode.get` inside `collapse_whitespace`'s `_get_text`
(an `IndexError` becomes `none`). -/
def pyGet (ns : List Node) (i : Int) : Option Node :=
  if 0 ≤ i then ns.get? i.toNat
  else if (-i).toNat ≤ ns.length then ns.get? (ns.length - (-i).toNat)
  else none

/-- The content of `nodes[i]` when it is a text node (`_get_text`,
lines 232-239). -/
def getTextAt (ns : List Node) (i : Int) : Option String :=
  match pyGet ns i with
  | some (Node.text s) => some s
  | _ => none

/-- `LinkChecker.collapse_whitespace` (lines 220-250): fix spacing
around the link using the neighboring text nodes.  `idx` is the index
of the wikilink in the node list; `prev` reads index `idx - 1` and
`next` index `idx` exactly as the source does (so `next` is the
wikilink slot itself and, not being a text node, always yields `none`;
only the reads of text-node contents matter, and text nodes are never
mutated, so reading the pre-pass list is equivalent to the source's
in-place traversal). -/
def collapse_whitespace (ns : List Node) (idx : Nat) (wl : Wikilink) : Wikilink :=
  let prev := getTextAt ns ((idx : Int) - 1)
  let nxt := getTextAt ns (idx : Int)
  let wl1 :=
    match prev with
    | some p =>
      if p.endsWith " " ∨ p.endsWith "\n" then { wl with title := lstrip wl.title } else wl
    | none => wl
  match nxt with
  | some n =>
    if n.startsWith " " ∨ n.endsWith "\n" then
      match wl1.text with
      | some x => { wl1 with text := some (rstrip x) }
      | none => { wl1 with title := rstrip wl1.title }
    else wl1
  | none => wl1

/-! ## The page processor (`update_page`, lines 252-279) -/

/-- Body of the `for wikilink in wikicode.ifilter_wikilinks(...)` loop:
parse the `Title`, skip interlanguage links, run the six rules in their
hard-wired order, then collapse outer whitespace.  Returns the new link
and the warnings it produced. -/
def processWikilinkAt (cfg : Config) (srcpage : String) (ns : List Node) (idx : Nat)
    (wl : Wikilink) : Wikilink × List String :=
  let wl_title := parseTitle cfg wl.title
  if wl_title.iw ∈ cfg.interlanguage then (wl, [])
  else
    let wl1 := collapse_whitespace_pipe wl
    let wl2 := check_trivial wl1
    let r3 := check_relative cfg wl2 wl_title srcpage
    let r4 := check_redirect_exact cfg r3.1 r3.2
    let r5 := check_redirect_capitalization cfg r4.1 r4.2
    let r6 := check_displaytitle cfg r5.1 r5.2
    (collapse_whitespace ns idx r6.1, r6.2.2)

/-- Worker for the `for wikilink in wikicode.ifilter_wikilinks(...)`
loop: walks the node list with its running index, sending every link
node through the pipeline and every text node through unchanged;
`full` is the whole node list, consulted by `collapse_whitespace` for
neighbor access. -/
def update_page_go (cfg : Config) (srcpage : String) (full : List Node) :
    Nat → List Node → List (Node × List String)
  | _, [] => []
  | i, Node.text s :: rest =>
    (Node.text s, ([] : List String)) :: update_page_go cfg srcpage full (i + 1) rest
  | i, Node.link t x :: rest =>
    let r := processWikilinkAt cfg srcpage full i { title := t, text := x }
    (Node.link r.1.title r.1.text, r.2) :: update_page_go cfg srcpage full (i + 1) rest

/-- One pass of `update_page` over an already-parsed node list: every
wikilink node is rewritten through the pipeline, text nodes are left
intact; the second component collects the emitted warnings. -/
def update_page_nodes (cfg : Config) (srcpage : String) (ns : List Node) :
    List Node × List String :=
  let ps := update_page_go cfg srcpage ns 0 ns
  (ps.map (fun p => p.1), (ps.map (fun p => p.2)).flatten)

/-- `LinkChecker.update_page` (lines 252-279): parse the content, update
every link, reserialize. -/
def update_page (cfg : Config) (srcpage text : String) : String :=
  serializeWikicode (update_page_nodes cfg srcpage (mwparse text)).1

/-- Warnings logged while updating one page. -/
def update_page_warnings (cfg : Config) (srcpage text : String) : List String :=
  (update_page_nodes cfg srcpage (mwparse text)).2

/-! ## Edit submission (`_edit`, lines 299-307) and page orchestration -/

/-- Observable outcome of one `_edit` call: whether an edit-submission
API call was made, whether an `APIError` escaped `_edit`, and the log
entries `_edit` itself emitted. -/
structure EditResult where
  attempted : Bool
  raised : Bool
  logged : List String
deriving DecidableEq, Repr

/-- `LinkChecker._edit` (lines 299-307).  `apiResult` stands for the
behavior of the external `api.edit`/`edit_interactive` collaborator:
`Except.error e` means the call raises `APIError e`.  The source wraps
the call in `try ... except APIError as e: pass`, so an API error is
caught and nothing is logged; when old and new text coincide no call is
made at all. -/
def edit_page (apiResult : Except String Unit) (text_new text_old : String) : EditResult :=
  if text_old ≠ text_new then
    match apiResult with
    | Except.ok _ => { attempted := true, raised := false, logged := [] }
    | Except.error _ => { attempted := true, raised := false, logged := [] }
  else { attempted := false, raised := false, logged := [] }

/-- `LinkChecker.process_page` (lines 281-287): fetch content (supplied
here as `text_old`), update it, submit. -/
def process_page (cfg : Config) (apiResult : Except String Unit)
    (srcpage text_old : String) : EditResult :=
  edit_page apiResult (update_page cfg srcpage text_old) text_old

/-- `LinkChecker.process_allpages` (lines 289-297): process every page
of a batch whose title is classified as English, submitting each edit in
turn.  `isEnglish` models `ws.ArchWiki.lang.detect_language` (modelled
from the spec §6: used only to restrict bulk runs to one language).
Each batch entry carries the page title, its old text, and the behavior
of the edit-submission call for that page. -/
def process_allpages (cfg : Config) (isEnglish : String → Bool)
    (pages : List (String × String × Except String Unit)) : List EditResult :=
  (pages.filter (fun p => isEnglish p.1)).map
    (fun p => process_page cfg p.2.2 p.1 p.2.1)

/-! ## Spec-side restatements of the rules

For the functional-correctness claims the rule is re-stated from the
spec's own wording (§4.2) and compared with the translation of the
source; the two definitions are written independently. -/

/-- Spec §4.2 rule 2 (Trivial), written from the spec's words: if the
display text's canonical form equals the target's canonical form, drop
the display text entirely, the remaining target being the old display
text; otherwise leave the link unchanged. -/
def spec_trivial (wl : Wikilink) : Wikilink :=
  match wl.text with
  | none => wl
  | some x =>
    if canonicalize x = canonicalize wl.title then { title := x, text := none } else wl

/-- Spec §4.2 rule 3 (Relative), written from the spec's words: only
with a section fragment and no interwiki prefix; resolve the target
through the Redirect Table (fallback: the target itself) to an
effective full page name; exactly when that equals the canonical form
of the current page's title, rewrite the target to `#<section>` and
re-parse the Title. -/
def spec_relative (cfg : Config) (wl : Wikilink) (title : Title) (srcpage : String) :
    Wikilink × Title :=
  if title.sectionname = "" ∨ title.iw ≠ "" then (wl, title)
  else
    let eff : String :=
      match lookupStr cfg.redirects title.fullpagename with
      | some target => (parseTitle cfg target).fullpagename
      | none => title.fullpagename
    if eff = canonicalize srcpage then
      ({ wl with title := "#" ++ title.sectionname }, parseTitle cfg ("#" ++ title.sectionname))
    else (wl, title)

/-- Spec §4.2 rule 4 (Redirect-exact), written from the spec's words:
only when display text is present and neither side carries a section
fragment; if both resolve through the Redirect Table to equal final
targets, or exactly one resolves and its final target equals the
other's literal full page name, collapse to a single-argument link
whose target is the old display text, re-deriving the Title; in every
other case leave the link unchanged. -/
def spec_redirect_exact (cfg : Config) (wl : Wikilink) (title : Title) : Wikilink × Title :=
  match wl.text with
  | none => (wl, title)
  | some xt =>
    let textT := parseTitle cfg xt
    if title.sectionname ≠ "" ∨ textT.sectionname ≠ "" then (wl, title)
    else
      let fires : Bool :=
        match lookupStr cfg.redirects title.fullpagename,
              lookupStr cfg.redirects textT.fullpagename with
        | some t1, some t2 => t1 = t2
        | some t1, none => t1 = textT.fullpagename
        | none, some t2 => t2 = title.fullpagename
        | none, none => false
      if fires then ({ title := xt, text := none }, parseTitle cfg xt) else (wl, title)

/-- Spec §4.2 rule 5 (Redirect-capitalization) amended by the
hard-coded `Wpa supplicant` exemption the source carries: in
interactive mode, for a title with non-empty full page name whose
pagename is not `Wpa supplicant`, if the Redirect Table maps the full
page name to a target differing from it only by letter case, rewrite
the target to the resolved form with the section fragment appended
back; otherwise (and always in non-interactive mode) leave the link
unchanged. -/
def spec_redirect_capitalization (cfg : Config) (wl : Wikilink) (title : Title) :
    Wikilink × Title :=
  if cfg.interactive = false ∨ title.pagename = "Wpa supplicant" ∨ title.fullpagename = ""
  then (wl, title)
  else
    match lookupStr cfg.redirects title.fullpagename with
    | none => (wl, title)
    | some target =>
      if strLower target = strLower title.fullpagename then
        let newT :=
          if title.sectionname ≠ "" then target ++ "#" ++ title.sectionname else target
        ({ wl with title := newT }, parseTitle cfg newT)
      else (wl, title)

/-! ## Concrete configurations used by counterexamples and witnesses -/

/-- Empty non-interactive configuration. -/
def cfgEmpty : Config :=
  { interactive := false, redirects := [], displaytitles := [], namespaces := [],
    iwPrefixes := [], interlanguage := [] }

/-- Redirect Table with `Foo → Baz` and `Bar → Baz`. -/
def cfgBaz : Config := { cfgEmpty with redirects := [("Foo", "Baz"), ("Bar", "Baz")] }

/-- Interactive run with the `Wpa supplicant → WPA supplicant`
capitalization redirect. -/
def cfgWpa : Config :=
  { cfgEmpty with interactive := true, redirects := [("Wpa supplicant", "WPA supplicant")] }

/-- Interactive run with empty tables. -/
def cfgInteractive : Config := { cfgEmpty with interactive := true }

/-! ## Well-formedness predicates -/

/-- No two adjacent occurrences of `c` anywhere in the list. -/
def pairFree (c : Char) (l : List Char) : Prop := findPair c l = none

/-- The shape of a real page name or display title: wiki titles cannot
contain brackets, the pipe, or the fragment separator. -/
def saneStr (s : String) : Prop :=
  '[' ∉ s.data ∧ ']' ∉ s.data ∧ '|' ∉ s.data ∧ '#' ∉ s.data

/-- Well-formed lookup tables: every key and value of the Redirect
Table and the Display-Title Table, and every configured namespace and
interwiki prefix, is a page-name-shaped string. -/
def WfTables (cfg : Config) : Prop :=
  (∀ p ∈ cfg.redirects, saneStr p.1 ∧ saneStr p.2) ∧
  (∀ p ∈ cfg.displaytitles, saneStr p.1 ∧ saneStr p.2) ∧
  (∀ s ∈ cfg.namespaces, saneStr s) ∧
  (∀ s ∈ cfg.iwPrefixes, saneStr s)

/-- Shape invariant of a link's mutable fields under which serializing
and reparsing recovers the link: no pipe and no `]]` in the target, no
`]]` and no trailing `]` in the display text, and no trailing `]` in
the target when it stands alone. -/
def WfL (t : String) (x : Option String) : Prop :=
  '|' ∉ t.data ∧ pairFree ']' t.data ∧
  (x = none → t.data.getLast? ≠ some ']') ∧
  (∀ s, x = some s → pairFree ']' s.data ∧ s.data.getLast? ≠ some ']')

/-- Facts about the parsed `Title` object threaded beside the link
through the pipeline: its section fragment stays pipe-free and
`]]`-free and never ends in `]`. -/
def SecOk (tl : Title) : Prop :=
  pairFree ']' tl.sectionname.data ∧ '|' ∉ tl.sectionname.data ∧
  tl.sectionname.data.getLast? ≠ some ']'

/-- Invariant carried through the rule pipeline for one link. -/
def InvL (wl : Wikilink) (tl : Title) : Prop := WfL wl.title wl.text ∧ SecOk tl

/-- Structure of a node list whose serialization reparses to itself:
link fields are well-shaped, a text chunk standing directly before a
link contains no `[[` and no trailing `[`, and a final text chunk opens
no link that would still find a closer. -/
inductive WfNs : List Node → Prop
  | nil : WfNs []
  | lastText (s : String) : s ≠ "" →
      (∀ pre rest, findPair '[' s.data = some (pre, rest) → findPair ']' rest = none) →
      WfNs [Node.text s]
  | link (t : String) (x : Option String) (rest : List Node) :
      WfL t x → WfNs rest → WfNs (Node.link t x :: rest)
  | textLink (s t : String) (x : Option String) (rest : List Node) :
      s ≠ "" → findPair '[' s.data = none → s.data.getLast? ≠ some '[' →
      WfL t x → WfNs rest → WfNs (Node.text s :: Node.link t x :: rest)

/-- Titles of links as parsed from a raw document are bracket-free;
real markup parsers refuse brackets inside a link target, and the model
carries that fact as an explicit document hypothesis. -/
def TitleBracketFree : Node → Prop
  | Node.text _ => True
  | Node.link t _ => '[' ∉ t.data ∧ ']' ∉ t.data

/-- A document all of whose link targets are bracket-free. -/
def WfDoc (d : String) : Prop := ∀ n ∈ mwparse d, TitleBracketFree n

instance : ∀ n : Node, Decidable (TitleBracketFree n) := fun n =>
  match n with
  | Node.text _ => Decidable.isTrue trivial
  | Node.link t _ => inferInstanceAs (Decidable ('[' ∉ t.data ∧ ']' ∉ t.data))

instance (s : String) : Decidable (saneStr s) :=
  inferInstanceAs (Decidable ('[' ∉ s.data ∧ ']' ∉ s.data ∧ '|' ∉ s.data ∧ '#' ∉ s.data))

instance (cfg : Config) : Decidable (WfTables cfg) :=
  inferInstanceAs (Decidable ((∀ p ∈ cfg.redirects, saneStr p.1 ∧ saneStr p.2) ∧
    (∀ p ∈ cfg.displaytitles, saneStr p.1 ∧ saneStr p.2) ∧
    (∀ s ∈ cfg.namespaces, saneStr s) ∧ (∀ s ∈ cfg.iwPrefixes, saneStr s)))

instance (d : String) : Decidable (WfDoc d) :=
  inferInstanceAs (Decidable (∀ n ∈ mwparse d, TitleBracketFree n))

/-- Concatenated text-node content of a node list. -/
def textConcat (ns : List Node) : List Char :=
  (ns.map (fun n => match n with
    | Node.text t => t.data
    | Node.link _ _ => [])).flatten

/-- Whether `collapse_whitespace` strips the link target on the left:
the node before the link is a text node ending in a space or newline
(lines 241-245 of the source). -/
def prevStrip (ns : List Node) (idx : Nat) : Bool :=
  match getTextAt ns ((idx : Int) - 1) with
  | some p => p.endsWith " " || p.endsWith "\n"
  | none => false

/-- Apply `lstrip` when the flag is set. -/
def condStrip (b : Bool) (s : String) : String := if b then lstrip s else s

/-- Per-link side condition of the amended idempotence statement: a
link that carries display text points at a fragment-free target, and
the display text itself contains no `#`. -/
def GoodNode (cfg : Config) : Node → Prop
  | Node.text _ => True
  | Node.link _ none => True
  | Node.link t (some x0) => (parseTitle cfg t).sectionname = "" ∧ '#' ∉ x0.data

instance (cfg : Config) : ∀ n : Node, Decidable (GoodNode cfg n) := fun n =>
  match n with
  | Node.text _ => Decidable.isTrue trivial
  | Node.link _ none => Decidable.isTrue trivial
  | Node.link t (some x0) =>
    inferInstanceAs (Decidable ((parseTitle cfg t).sectionname = "" ∧ '#' ∉ x0.data))

/-- The `_title` object computed inside `check_relative` (lines 85-90):
the redirect-resolved target carrying the original section fragment. -/
def relativeTarget (cfg : Config) (tl : Title) : Title :=
  match lookupStr cfg.redirects tl.fullpagename with
  | some target => { parseTitle cfg target with sectionname := tl.sectionname }
  | none => tl

/-- All links of a document satisfy the per-link side condition. -/
def GoodLinks (cfg : Config) (d : String) : Prop := ∀ n ∈ mwparse d, GoodNode cfg n

instance (cfg : Config) (d : String) : Decidable (GoodLinks cfg d) :=
  inferInstanceAs (Decidable (∀ n ∈ mwparse d, GoodNode cfg n))

/-! ## Parser unfolding lemmas -/

theorem findPair_eq (c : Char) :
    ∀ (l pre post : List Char), findPair c l = some (pre, post) →
      l = pre ++ c :: c :: post
  | [], pre, post => by simp [findPair]
  | [a], pre, post => by simp [findPair]
  | a :: b :: rest, pre, post => by
    unfold findPair
    by_cases hab : a = c ∧ b = c
    · simp only [hab, if_pos, and_self, if_true]
      intro h
      obtain ⟨h1, h2⟩ := Prod.mk.injEq .. ▸ Option.some.injEq .. ▸ h
      subst h1; subst h2
      simp [hab.1, hab.2]
    · simp only [if_neg hab]
      cases hrec : findPair c (b :: rest) with
      | none => simp
      | some pr =>
        obtain ⟨pre', post'⟩ := pr
        have ih := findPair_eq c (b :: rest) pre' post' hrec
        simp only [Option.some.injEq, Prod.mk.injEq]
        rintro ⟨h1, h2⟩
        subst h1; subst h2
        simp [ih]

theorem parseNodesF_congr :
    ∀ (f₁ : Nat), ∀ (f₂ : Nat), ∀ (l : List Char), l.length ≤ f₁ → l.length ≤ f₂ →
      parseNodesF f₁ l = parseNodesF f₂ l := by
  intro f₁
  induction f₁ using Nat.strong_induction_on with
  | _ f₁ ih =>
    intro f₂ l h₁ h₂
    match f₁, f₂ with
    | 0, 0 => rfl
    | 0, g + 1 =>
      have : l = [] := List.length_eq_zero.mp (Nat.le_zero.mp h₁)
      subst this
      simp [parseNodesF, findPair]
    | g + 1, 0 =>
      have : l = [] := List.length_eq_zero.mp (Nat.le_zero.mp h₂)
      subst this
      simp [parseNodesF, findPair]
    | g₁ + 1, g₂ + 1 =>
      show parseNodesF (g₁ + 1) l = parseNodesF (g₂ + 1) l
      unfold parseNodesF
      cases h1 : findPair '[' l with
      | none => simp only [h1]
      | some pr =>
        obtain ⟨pre, rest⟩ := pr
        cases h2 : findPair ']' rest with
        | none => simp only [h1, h2]
        | some pr2 =>
          obtain ⟨inner, post⟩ := pr2
          have e1 := findPair_eq '[' l pre rest h1
          have e2 := findPair_eq ']' rest inner post h2
          have hlen : post.length + 4 ≤ l.length := by
            subst e1; subst e2; simp [List.length_append]; omega
          have hp₁ : post.length ≤ g₁ := by omega
          have hp₂ : post.length ≤ g₂ := by omega
          have := ih g₁ (by omega) g₂ post hp₁ hp₂
          simp only [h1, h2, this]

/-- Unfold `parseNodes` one step on input of any size. -/
theorem parseNodes_eq (l : List Char) :
    parseNodes l =
      match findPair '[' l with
      | none => if l = [] then [] else [Node.text ⟨l⟩]
      | some (pre, rest) =>
        match findPair ']' rest with
        | none => if l = [] then [] else [Node.text ⟨l⟩]
        | some (inner, post) =>
          (if pre = [] then [] else [Node.text ⟨pre⟩]) ++ mkLinkNode inner :: parseNodes post := by
  show parseNodesF l.length l = _
  cases hl : l with
  | nil => simp [parseNodesF, findPair]
  | cons a as =>
    rw [← hl]
    have hpos : l.length = (l.length - 1) + 1 := by subst hl; simp
    rw [hpos]
    unfold parseNodesF
    cases h1 : findPair '[' l with
    | none => simp only [h1]
    | some pr =>
      obtain ⟨pre, rest⟩ := pr
      cases h2 : findPair ']' rest with
      | none => simp only [h1, h2]
      | some pr2 =>
        obtain ⟨inner, post⟩ := pr2
        have e1 := findPair_eq '[' l pre rest h1
        have e2 := findPair_eq ']' rest inner post h2
        have hlen : post.length + 4 ≤ l.length := by
          subst e1; subst e2; simp [List.length_append]; omega
        have hrec : parseNodesF (l.length - 1) post = parseNodes post :=
          parseNodesF_congr (l.length - 1) post.length post (by omega) (Nat.le_refl _)
        simp only [h1, h2, hrec]

theorem update_page_go_length (cfg : Config) (srcpage : String) (full : List Node) :
    ∀ (i : Nat) (ms : List Node),
      (update_page_go cfg srcpage full i ms).length = ms.length := by
  intro i ms
  induction ms generalizing i with
  | nil => rfl
  | cons n rest ih =>
    cases n with
    | text s => simp [update_page_go, ih]
    | link t x => simp [update_page_go, ih]

/-! ## Character and membership lemmas -/

theorem toNat_char_ofNat (n : Nat) (h : n < 55296) : (Char.ofNat n).toNat = n := by
  rw [Char.ofNat, dif_pos (Or.inl h)]
  rfl

theorem toUpper_fix_of_out (c : Char) (hc : 90 < c.toNat ∨ c.toNat < 65) :
    ∀ d : Char, Char.toUpper d = c → d = c := by
  intro d h
  unfold Char.toUpper at h
  simp only [] at h
  by_cases hcond : d.toNat ≥ 97 ∧ d.toNat ≤ 122
  · exfalso
    rw [if_pos hcond] at h
    have h2 := congrArg Char.toNat h
    rw [toNat_char_ofNat (d.toNat - 32) (by omega)] at h2
    omega
  · rw [if_neg hcond] at h
    exact h

theorem mem_dropWhile_of_mem {p : Char → Bool} {c : Char} (hc : p c = false) :
    ∀ {l : List Char}, c ∈ l → c ∈ l.dropWhile p := by
  intro l
  induction l with
  | nil => intro h; exact absurd h (List.not_mem_nil c)
  | cons a rest ih =>
    intro h
    by_cases ha : p a
    · rw [List.dropWhile_cons_of_pos ha]
      rcases List.mem_cons.mp h with h1 | h2
      · subst h1; rw [hc] at ha; exact absurd ha (by simp)
      · exact ih h2
    · rw [List.dropWhile_cons_of_neg ha]
      exact h

theorem mem_of_mem_dropWhile {p : Char → Bool} {c : Char} {l : List Char}
    (h : c ∈ l.dropWhile p) : c ∈ l := (List.dropWhile_sublist p).subset h

theorem mem_trimWsU {c : Char} (hc : isWsU c = false) (l : List Char) :
    c ∈ trimWsU l ↔ c ∈ l := by
  unfold trimWsU dropWsU
  constructor
  · intro h
    have h1 := mem_of_mem_dropWhile h
    rw [List.mem_reverse] at h1
    have h2 := mem_of_mem_dropWhile h1
    rw [List.mem_reverse] at h2
    exact h2
  · intro h
    apply mem_dropWhile_of_mem hc
    rw [List.mem_reverse]
    apply mem_dropWhile_of_mem hc
    rw [List.mem_reverse]
    exact h

theorem mem_squashWsU {c : Char} (hc : isWsU c = false) :
    ∀ l : List Char, c ∈ squashWsU l ↔ c ∈ l := by
  intro l
  induction l with
  | nil => simp [squashWsU]
  | cons a rest ih =>
    cases rest with
    | nil =>
      by_cases ha : isWsU a
      · have hca : c ≠ a := fun h => by rw [h, ha] at hc; cases hc
        have hcs : c ≠ ' ' := fun h => by rw [h] at hc; cases hc
        simp [squashWsU, ha, hca, hcs]
      · simp [squashWsU, ha]
    | cons b rest2 =>
      show c ∈ squashWsU (a :: b :: rest2) ↔ _
      unfold squashWsU
      by_cases hab : isWsU a && isWsU b
      · rw [if_pos hab]
        have ha : isWsU a := by
          cases h2 : isWsU a
          · rw [h2] at hab; cases hab
          · rfl
        have hca : c ≠ a := fun h => by rw [h, ha] at hc; cases hc
        rw [ih]
        simp [hca]
      · rw [if_neg hab]
        have hcs : c ≠ ' ' := fun h => by rw [h] at hc; cases hc
        by_cases ha : isWsU a
        · have hca : c ≠ a := fun h => by rw [h, ha] at hc; cases hc
          simp only [if_pos ha, List.mem_cons, ih]
          constructor
          · rintro (h | h)
            · exact absurd h hcs
            · exact Or.inr h
          · rintro (h | h)
            · exact absurd h hca
            · exact Or.inr h
        · simp only [if_neg ha, List.mem_cons, ih]

theorem mem_upperFirst {c : Char} (h2 : Char.toUpper c = c)
    (h3 : 90 < c.toNat ∨ c.toNat < 65) :
    ∀ l : List Char, c ∈ upperFirst l ↔ c ∈ l := by
  intro l
  cases l with
  | nil => simp [upperFirst]
  | cons a rest =>
    simp only [upperFirst, List.mem_cons]
    constructor
    · rintro (h | h)
      · exact Or.inl ((toUpper_fix_of_out c h3 a h.symm).symm)
      · exact Or.inr h
    · rintro (h | h)
      · subst h; exact Or.inl (h2.symm)
      · exact Or.inr h

theorem mem_canonicalize {c : Char} (h1 : isWsU c = false) (h2 : Char.toUpper c = c)
    (h3 : 90 < c.toNat ∨ c.toNat < 65) (s : String) :
    c ∈ (canonicalize s).data ↔ c ∈ s.data := by
  show c ∈ upperFirst (squashWsU (trimWsU s.data)) ↔ c ∈ s.data
  rw [mem_upperFirst h2 h3, mem_squashWsU h1, mem_trimWsU h1]

theorem mem_strLower_of_mem {c : Char} (hfix : Char.toLower c = c) {s : String}
    (h : c ∈ s.data) : c ∈ (strLower s).data := by
  show c ∈ s.data.map Char.toLower
  exact List.mem_map.mpr ⟨c, h, hfix⟩

/-! ## pairFree lemmas -/

theorem pairFree_nil (c : Char) : pairFree c [] := rfl

theorem pairFree_singleton (c a : Char) : pairFree c [a] := rfl

theorem pairFree_cons₂ (c a b : Char) (l : List Char) :
    pairFree c (a :: b :: l) ↔ ¬(a = c ∧ b = c) ∧ pairFree c (b :: l) := by
  unfold pairFree
  show (if a = c ∧ b = c then some ([], l) else
      match findPair c (b :: l) with
      | some (pre, post) => some (a :: pre, post)
      | none => none) = none ↔ _
  by_cases hab : a = c ∧ b = c
  · simp [hab]
  · rw [if_neg hab]
    cases h : findPair c (b :: l) with
    | none => simp [hab, h]
    | some pr => simp [hab, h]

theorem pairFree_of_cons {c a : Char} {l : List Char}
    (h : pairFree c (a :: l)) : pairFree c l := by
  cases l with
  | nil => exact pairFree_nil c
  | cons b rest => exact ((pairFree_cons₂ c a b rest).mp h).2

theorem pairFree_of_not_mem {c : Char} : ∀ {l : List Char}, c ∉ l → pairFree c l := by
  intro l
  induction l with
  | nil => intro _; exact pairFree_nil c
  | cons a rest ih =>
    intro h
    cases rest with
    | nil => exact pairFree_singleton c a
    | cons b rest2 =>
      rw [pairFree_cons₂]
      refine ⟨fun hab => h (by rw [hab.1]; exact List.mem_cons_self c _), ?_⟩
      exact ih (fun hm => h (List.mem_cons_of_mem a hm))

theorem pairFree_append {c : Char} :
    ∀ {a b : List Char}, pairFree c a → pairFree c b →
      (a.getLast? ≠ some c ∨ b.head? ≠ some c) → pairFree c (a ++ b) := by
  intro a
  induction a with
  | nil => intro b _ hb _; exact hb
  | cons d rest ih =>
    intro b ha hb hab
    cases rest with
    | nil =>
      cases b with
      | nil => exact pairFree_singleton c d
      | cons b0 bs =>
        show pairFree c (d :: b0 :: bs)
        rw [pairFree_cons₂]
        refine ⟨?_, hb⟩
        rintro ⟨h1, h2⟩
        rcases hab with h | h
        · exact h (by rw [h1]; rfl)
        · exact h (by rw [h2]; rfl)
    | cons e ea =>
      have ha' := (pairFree_cons₂ c d e ea).mp ha
      have hlast : (e :: ea).getLast? ≠ some c ∨ b.head? ≠ some c := by
        rcases hab with h | h
        · exact Or.inl (by rw [List.getLast?_cons_cons] at h; exact h)
        · exact Or.inr h
      have ihr := ih ha'.2 hb hlast
      show pairFree c (d :: (e :: (ea ++ b)))
      rw [pairFree_cons₂]
      exact ⟨ha'.1, ihr⟩

theorem pairFree_append_left {c : Char} :
    ∀ {a b : List Char}, pairFree c (a ++ b) → pairFree c a := by
  intro a
  induction a with
  | nil => intro b _; exact pairFree_nil c
  | cons d rest ih =>
    intro b h
    cases rest with
    | nil => exact pairFree_singleton c d
    | cons e ea =>
      have h' := (pairFree_cons₂ c d e (ea ++ b)).mp h
      rw [pairFree_cons₂]
      exact ⟨h'.1, ih h'.2⟩

theorem pairFree_append_right {c : Char} :
    ∀ {a b : List Char}, pairFree c (a ++ b) → pairFree c b := by
  intro a
  induction a with
  | nil => intro b h; exact h
  | cons d rest ih =>
    intro b h
    exact ih (pairFree_of_cons h)

/-! ## splitAtChar lemmas -/

theorem splitAtChar_eq (c : Char) :
    ∀ (l p q : List Char), splitAtChar c l = (p, some q) → l = p ++ c :: q ∧ c ∉ p := by
  intro l
  induction l with
  | nil => intro p q h; exact absurd h (by simp [splitAtChar])
  | cons a rest ih =>
    intro p q h
    unfold splitAtChar at h
    by_cases hac : a = c
    · rw [if_pos hac] at h
      obtain ⟨h1, h2⟩ := Prod.mk.injEq .. ▸ h
      have h2' : some rest = some q := h2
      obtain rfl : rest = q := Option.some.injEq .. ▸ h2'
      subst hac
      simp [← h1]
    · rw [if_neg hac] at h
      cases hr : splitAtChar c rest with
      | mk p2 q2 =>
        rw [hr] at h
        simp only [Prod.mk.injEq] at h
        cases q2 with
        | none => exact absurd h.2 (by simp)
        | some q2v =>
          have hq : q2v = q := by
            have := h.2
            exact Option.some.injEq .. ▸ this
          obtain ⟨he, hnm⟩ := ih p2 q2v hr
          subst hq
          rw [← h.1, he]
          constructor
          · rfl
          · intro hm
            rcases List.mem_cons.mp hm with h1 | h2
            · exact hac h1.symm
            · exact hnm h2

theorem splitAtChar_none (c : Char) :
    ∀ (l p : List Char), splitAtChar c l = (p, none) → p = l ∧ c ∉ l := by
  intro l
  induction l with
  | nil =>
    intro p h
    have hp : p = [] := by
      have h2 := congrArg Prod.fst h
      simpa [splitAtChar] using h2
    subst hp
    exact ⟨rfl, List.not_mem_nil c⟩
  | cons a rest ih =>
    intro p h
    unfold splitAtChar at h
    by_cases hac : a = c
    · rw [if_pos hac] at h
      exact absurd (Prod.mk.injEq .. ▸ h).2 (by simp)
    · rw [if_neg hac] at h
      cases hr : splitAtChar c rest with
      | mk p2 q2 =>
        rw [hr] at h
        simp only [Prod.mk.injEq] at h
        cases q2 with
        | some q2v => exact absurd h.2 (by simp)
        | none =>
          obtain ⟨he, hnm⟩ := ih p2 hr
          subst he
          rw [← h.1]
          refine ⟨rfl, ?_⟩
          intro hm
          rcases List.mem_cons.mp hm with h1 | h2
          · exact hac h1.symm
          · exact hnm h2

theorem splitAtChar_app (c : Char) :
    ∀ (p q : List Char), c ∉ p → splitAtChar c (p ++ c :: q) = (p, some q) := by
  intro p
  induction p with
  | nil => intro q _; simp [splitAtChar]
  | cons a rest ih =>
    intro q h
    have hac : ¬ a = c := fun hh => h (by rw [hh]; exact List.mem_cons_self c _)
    show splitAtChar c (a :: (rest ++ c :: q)) = _
    unfold splitAtChar
    rw [if_neg hac, ih q (fun hm => h (List.mem_cons_of_mem a hm))]

theorem splitAtChar_no (c : Char) :
    ∀ (l : List Char), c ∉ l → splitAtChar c l = (l, none) := by
  intro l
  induction l with
  | nil => intro _; rfl
  | cons a rest ih =>
    intro h
    have hac : ¬ a = c := fun hh => h (by rw [hh]; exact List.mem_cons_self c _)
    unfold splitAtChar
    rw [if_neg hac, ih (fun hm => h (List.mem_cons_of_mem a hm))]

/-! ## Strip lemmas -/

theorem lstripChars_suffix (l : List Char) :
    l = l.takeWhile Char.isWhitespace ++ lstripChars l := by
  have h := List.takeWhile_append_dropWhile Char.isWhitespace l
  exact h.symm

theorem rstripChars_decomp (l : List Char) :
    l = rstripChars l ++ (l.reverse.takeWhile Char.isWhitespace).reverse := by
  unfold rstripChars
  have h := List.takeWhile_append_dropWhile Char.isWhitespace l.reverse
  have h2 := congrArg List.reverse h
  rw [List.reverse_append, List.reverse_reverse] at h2
  exact h2.symm

theorem getLast?_of_suffix {c : Char} {w s : List Char}
    (h : (w ++ s).getLast? ≠ some c) : s.getLast? ≠ some c := by
  intro hs
  cases s with
  | nil => cases hs
  | cons a rest =>
    rw [List.getLast?_append] at h
    rw [hs] at h
    exact h rfl

theorem pairFree_lstrip {c : Char} {l : List Char} (h : pairFree c l) :
    pairFree c (lstripChars l) := by
  have h2 : pairFree c (l.takeWhile Char.isWhitespace ++ lstripChars l) := by
    rw [← lstripChars_suffix]
    exact h
  exact pairFree_append_right h2

theorem pairFree_rstrip {c : Char} {l : List Char} (h : pairFree c l) :
    pairFree c (rstripChars l) := by
  have h2 : pairFree c (rstripChars l ++ (l.reverse.takeWhile Char.isWhitespace).reverse) := by
    rw [← rstripChars_decomp]
    exact h
  exact pairFree_append_left h2

theorem getLast?_lstrip {c : Char} {l : List Char} (h : l.getLast? ≠ some c) :
    (lstripChars l).getLast? ≠ some c := by
  have h2 : (l.takeWhile Char.isWhitespace ++ lstripChars l).getLast? ≠ some c := by
    rw [← lstripChars_suffix]
    exact h
  exact getLast?_of_suffix h2

theorem not_mem_lstrip {c : Char} {l : List Char} (h : c ∉ l) : c ∉ lstripChars l :=
  fun hm => h (mem_of_mem_dropWhile hm)

theorem not_mem_rstrip {c : Char} {l : List Char} (h : c ∉ l) : c ∉ rstripChars l := by
  intro hm
  apply h
  rw [rstripChars_decomp l]
  exact List.mem_append.mpr (Or.inl hm)

/-! ## findPair structure lemmas -/

theorem findPair_pre (c : Char) :
    ∀ (l pre post : List Char), findPair c l = some (pre, post) →
      pairFree c pre ∧ pre.getLast? ≠ some c := by
  intro l
  induction l with
  | nil => intro pre post h; exact absurd h (by simp [findPair])
  | cons a rest ihl =>
    intro pre post h
    cases rest with
    | nil => exact absurd h (by simp [findPair])
    | cons b rest2 =>
      unfold findPair at h
      by_cases hab : a = c ∧ b = c
      · rw [if_pos hab] at h
        obtain ⟨h1, h2⟩ := Prod.mk.injEq .. ▸ Option.some.injEq .. ▸ h
        refine ⟨?_, ?_⟩
        · rw [← h1]; exact pairFree_nil c
        · rw [← h1]; simp
      · rw [if_neg hab] at h
        cases hrec : findPair c (b :: rest2) with
        | none => rw [hrec] at h; exact absurd h (by simp)
        | some pr =>
          obtain ⟨pre', post'⟩ := pr
          rw [hrec] at h
          obtain ⟨h1, h2⟩ := Prod.mk.injEq .. ▸ Option.some.injEq .. ▸ h
          obtain ⟨ihp, ihl2⟩ := ihl pre' post' hrec
          have hshape := findPair_eq c (b :: rest2) pre' post' hrec
          subst h1
          cases hpre : pre' with
          | nil =>
            have hb : b = c := by
              rw [hpre] at hshape
              exact (List.cons.injEq .. ▸ hshape).1
            have hac : a ≠ c := fun haa => hab ⟨haa, hb⟩
            refine ⟨pairFree_singleton c a, ?_⟩
            simp [hac]
          | cons p0 ps =>
            have hp0 : p0 = b := by
              rw [hpre] at hshape
              exact ((List.cons.injEq .. ▸ hshape).1).symm
            refine ⟨?_, ?_⟩
            · rw [pairFree_cons₂]
              refine ⟨fun hh => hab ⟨hh.1, hp0 ▸ hh.2⟩, ?_⟩
              rw [← hpre]; exact ihp
            · rw [List.getLast?_cons_cons, ← hpre]
              exact ihl2

theorem findPair_append (c : Char) :
    ∀ (pre post : List Char), pairFree c pre → pre.getLast? ≠ some c →
      findPair c (pre ++ c :: c :: post) = some (pre, post) := by
  intro pre
  induction pre with
  | nil =>
    intro post _ _
    show findPair c (c :: c :: post) = _
    unfold findPair
    rw [if_pos ⟨rfl, rfl⟩]
  | cons d rest ih =>
    intro post hp hl
    cases rest with
    | nil =>
      have hdc : d ≠ c := by
        intro hh
        exact hl (by rw [hh]; rfl)
      show findPair c (d :: c :: c :: post) = _
      unfold findPair
      rw [if_neg (fun hh => hdc hh.1)]
      have : findPair c (c :: c :: post) = some ([], post) := by
        unfold findPair
        rw [if_pos ⟨rfl, rfl⟩]
      rw [this]
    | cons e ea =>
      have hp' := (pairFree_cons₂ c d e ea).mp hp
      have hl' : (e :: ea).getLast? ≠ some c := by
        rw [List.getLast?_cons_cons] at hl
        exact hl
      have ihr := ih post hp'.2 hl'
      show findPair c (d :: (e :: (ea ++ c :: c :: post))) = _
      unfold findPair
      rw [if_neg hp'.1]
      have ihr' : findPair c (e :: (ea ++ c :: c :: post)) = some (e :: ea, post) := ihr
      rw [ihr']

/-! ## parseTitle section lemmas -/

theorem parseTitle_sectionname (cfg : Config) (raw : String) :
    (parseTitle cfg raw).sectionname = ⟨(splitAtChar '#' raw.data).2.getD []⟩ := by
  unfold parseTitle
  cases hc : splitAtChar ':' (splitAtChar '#' raw.data).1 with
  | mk pre rest =>
    cases rest with
    | none => simp only [hc]
    | some r =>
      simp only [hc]
      by_cases h1 : strLower (canonicalize ⟨pre⟩) ∈ cfg.iwPrefixes
      · rw [if_pos h1]
      · rw [if_neg h1]
        by_cases h2 : canonicalize ⟨pre⟩ ∈ cfg.namespaces
        · rw [if_pos h2]
        · rw [if_neg h2]

theorem sec_cases (cfg : Config) (raw : String) :
    (parseTitle cfg raw).sectionname = "" ∨
      raw.data = (splitAtChar '#' raw.data).1 ++ '#' :: (parseTitle cfg raw).sectionname.data := by
  rw [parseTitle_sectionname]
  cases h : (splitAtChar '#' raw.data).2 with
  | none => left; rfl
  | some q =>
    right
    have h2 : splitAtChar '#' raw.data = ((splitAtChar '#' raw.data).1, some q) := by
      rw [← h]
    have := (splitAtChar_eq '#' raw.data (splitAtChar '#' raw.data).1 q h2).1
    exact this

theorem sec_pairFree {cfg : Config} {raw : String} (h : pairFree ']' raw.data) :
    pairFree ']' ((parseTitle cfg raw).sectionname).data := by
  rcases sec_cases cfg raw with hs | hs
  · rw [hs]; exact pairFree_nil ']'
  · have h2 : pairFree ']' ('#' :: (parseTitle cfg raw).sectionname.data) := by
      apply pairFree_append_right
      rw [← hs]
      exact h
    exact pairFree_of_cons h2

theorem sec_not_mem {cfg : Config} {raw : String} {c : Char} (h : c ∉ raw.data) :
    c ∉ ((parseTitle cfg raw).sectionname).data := by
  rcases sec_cases cfg raw with hs | hs
  · rw [hs]; exact List.not_mem_nil c
  · intro hm
    apply h
    rw [hs]
    exact List.mem_append.mpr (Or.inr (List.mem_cons_of_mem '#' hm))

theorem sec_getLast {cfg : Config} {raw : String} (h : raw.data.getLast? ≠ some ']') :
    ((parseTitle cfg raw).sectionname).data.getLast? ≠ some ']' := by
  rcases sec_cases cfg raw with hs | hs
  · rw [hs]; simp
  · cases hsd : (parseTitle cfg raw).sectionname.data with
    | nil => simp
    | cons s0 ss =>
      rw [hsd] at hs
      rw [hs] at h
      have h2 := getLast?_of_suffix h
      rw [List.getLast?_cons_cons] at h2
      exact h2

/-! ## Parse structure and roundtrip lemmas -/

theorem pairFree_cons_of_ne {c a : Char} (hne : a ≠ c) {l : List Char}
    (h : pairFree c l) : pairFree c (a :: l) := by
  cases l with
  | nil => exact pairFree_singleton c a
  | cons b rest =>
    rw [pairFree_cons₂]
    exact ⟨fun hh => hne hh.1, h⟩

theorem getLast?_append_of_ne_nil {b : List Char} (hb : b ≠ []) (a : List Char) :
    (a ++ b).getLast? = b.getLast? := by
  rw [List.getLast?_append]
  cases hbl : b.getLast? with
  | none => exact absurd (List.getLast?_eq_none_iff.mp hbl) hb
  | some y => rfl

theorem string_mk_ne_empty {l : List Char} (h : l ≠ []) : (⟨l⟩ : String) ≠ "" := by
  intro hh
  exact h (congrArg String.data hh)

theorem findPair_cc (c : Char) (q : List Char) : findPair c (c :: c :: q) = some ([], q) := by
  unfold findPair
  rw [if_pos ⟨rfl, rfl⟩]

theorem parseNodes_no_open {l : List Char} (h1 : findPair '[' l = none) :
    parseNodes l = if l = [] then [] else [Node.text ⟨l⟩] := by
  rw [parseNodes_eq]
  simp only [h1]

theorem parseNodes_no_close {l pre rest : List Char}
    (h1 : findPair '[' l = some (pre, rest)) (h2 : findPair ']' rest = none) :
    parseNodes l = if l = [] then [] else [Node.text ⟨l⟩] := by
  rw [parseNodes_eq]
  simp only [h1, h2]

theorem parseNodes_step {l pre rest inner post : List Char}
    (h1 : findPair '[' l = some (pre, rest)) (h2 : findPair ']' rest = some (inner, post)) :
    parseNodes l =
      (if pre = [] then [] else [Node.text ⟨pre⟩]) ++ mkLinkNode inner :: parseNodes post := by
  rw [parseNodes_eq]
  simp only [h1, h2]

theorem wf_parse_fuel :
    ∀ (n : Nat) (l : List Char), l.length ≤ n → WfNs (parseNodes l) := by
  intro n
  induction n with
  | zero =>
    intro l h
    have : l = [] := List.length_eq_zero.mp (Nat.le_zero.mp h)
    subst this
    exact WfNs.nil
  | succ n ih =>
    intro l hlen
    cases h1 : findPair '[' l with
    | none =>
      rw [parseNodes_no_open h1]
      by_cases hl : l = []
      · rw [if_pos hl]; exact WfNs.nil
      · rw [if_neg hl]
        exact WfNs.lastText ⟨l⟩ (string_mk_ne_empty hl)
          (fun pre rest hfp => absurd hfp (by rw [h1]; simp))
    | some pr =>
      obtain ⟨pre, rest⟩ := pr
      have hshape := findPair_eq '[' l pre rest h1
      have hlne : l ≠ [] := by
        rw [hshape]
        intro hh
        exact absurd (congrArg List.length hh) (by simp)
      cases h2 : findPair ']' rest with
      | none =>
        rw [parseNodes_no_close h1 h2, if_neg hlne]
        refine WfNs.lastText ⟨l⟩ (string_mk_ne_empty hlne) ?_
        intro pre' rest' hfp
        have : pre' = pre ∧ rest' = rest := by
          rw [h1] at hfp
          obtain ⟨ha, hb⟩ := Prod.mk.injEq .. ▸ Option.some.injEq .. ▸ hfp
          exact ⟨ha.symm, hb.symm⟩
        rw [this.2, h2]
      | some pr2 =>
        obtain ⟨inner, post⟩ := pr2
        have hshape2 := findPair_eq ']' rest inner post h2
        have hpost : post.length ≤ n := by
          have : l.length = pre.length + 2 + (inner.length + 2 + post.length) := by
            rw [hshape, hshape2]
            simp [List.length_append]
            omega
          omega
        have ihp := ih post hpost
        obtain ⟨hinpf, hinlast⟩ := findPair_pre ']' rest inner post h2
        have hwfl : ∀ nd, nd = mkLinkNode inner → ∃ t x, nd = Node.link t x ∧ WfL t x := by
          intro nd hnd
          unfold mkLinkNode at hnd
          cases hsp : splitAtChar '|' inner with
          | mk tpart xpart =>
            rw [hsp] at hnd
            cases xpart with
            | none =>
              obtain ⟨hte, htm⟩ := splitAtChar_none '|' inner tpart hsp
              refine ⟨⟨tpart⟩, none, hnd, ?_, ?_, ?_, ?_⟩
              · rw [hte]; exact htm
              · show pairFree ']' tpart
                rw [hte]; exact hinpf
              · intro _
                show tpart.getLast? ≠ some ']'
                rw [hte]; exact hinlast
              · intro s hs; exact absurd hs (by simp)
            | some xv =>
              obtain ⟨hte, htm⟩ := splitAtChar_eq '|' inner tpart xv hsp
              refine ⟨⟨tpart⟩, some ⟨xv⟩, hnd, htm, ?_, ?_, ?_⟩
              · show pairFree ']' tpart
                rw [hte] at hinpf
                exact pairFree_append_left hinpf
              · intro hcon; exact absurd hcon (by simp)
              · intro s hs
                have hsv : s = (⟨xv⟩ : String) := by
                  exact (Option.some.injEq .. ▸ hs).symm
                subst hsv
                constructor
                · show pairFree ']' xv
                  rw [hte] at hinpf
                  exact pairFree_of_cons (pairFree_append_right hinpf)
                · show xv.getLast? ≠ some ']'
                  cases hxv : xv with
                  | nil => simp
                  | cons x0 xs =>
                    rw [hte] at hinlast
                    have hns : ('|' :: xv) ≠ [] := by simp
                    rw [getLast?_append_of_ne_nil hns tpart] at hinlast
                    rw [hxv] at hinlast
                    rw [List.getLast?_cons_cons] at hinlast
                    exact hinlast
        obtain ⟨t, x, hnd, hwf⟩ := hwfl (mkLinkNode inner) rfl
        rw [parseNodes_step h1 h2, hnd]
        by_cases hpre : pre = []
        · rw [if_pos hpre]
          rw [List.nil_append]
          exact WfNs.link t x _ hwf ihp
        · rw [if_neg hpre]
          obtain ⟨hprepf, hprelast⟩ := findPair_pre '[' l pre rest h1
          exact WfNs.textLink ⟨pre⟩ t x _ (string_mk_ne_empty hpre) hprepf hprelast hwf ihp

theorem wf_parse (l : List Char) : WfNs (parseNodes l) :=
  wf_parse_fuel l.length l (Nat.le_refl _)

theorem serializeWikicode_cons (n : Node) (rest : List Node) :
    (serializeWikicode (n :: rest)).data = serializeNodeChars n ++ (serializeWikicode rest).data := by
  show ((n :: rest).map serializeNodeChars).flatten = _
  rw [List.map_cons, List.flatten_cons]
  rfl

theorem serial_link_cons (t : String) (x : Option String) (rest : List Node) :
    (serializeWikicode (Node.link t x :: rest)).data =
      '[' :: '[' ::
        ((t.data ++ match x with | none => [] | some s => '|' :: s.data) ++
          ']' :: ']' :: (serializeWikicode rest).data) := by
  rw [serializeWikicode_cons]
  cases x with
  | none => simp [serializeNodeChars]
  | some s => simp [serializeNodeChars]

theorem wfL_inner_pairFree (t : String) (x : Option String) (inner : List Char)
    (hin : inner = t.data ++ match x with | none => [] | some s => '|' :: s.data)
    (hwf : WfL t x) : pairFree ']' inner := by
  subst hin
  cases x with
  | none =>
    rw [List.append_nil]
    exact hwf.2.1
  | some s =>
    refine pairFree_append hwf.2.1 ?_ (Or.inr (by simp))
    exact pairFree_cons_of_ne (by decide) ((hwf.2.2.2 s rfl).1)

theorem wfL_inner_getLast (t : String) (x : Option String) (inner : List Char)
    (hin : inner = t.data ++ match x with | none => [] | some s => '|' :: s.data)
    (hwf : WfL t x) : inner.getLast? ≠ some ']' := by
  subst hin
  cases x with
  | none =>
    rw [List.append_nil]
    exact hwf.2.2.1 rfl
  | some s =>
    have hns : ('|' :: s.data) ≠ [] := by simp
    rw [getLast?_append_of_ne_nil hns t.data]
    cases hsd : s.data with
    | nil => simp
    | cons s0 ss =>
      rw [List.getLast?_cons_cons]
      have h2 := (hwf.2.2.2 s rfl).2
      rw [hsd] at h2
      exact h2

theorem mkLinkNode_inner (t : String) (x : Option String) (inner : List Char)
    (hin : inner = t.data ++ match x with | none => [] | some s => '|' :: s.data)
    (hwf : WfL t x) : mkLinkNode inner = Node.link t x := by
  subst hin
  cases x with
  | none =>
    rw [List.append_nil]
    unfold mkLinkNode
    rw [splitAtChar_no '|' t.data hwf.1]
  | some s =>
    unfold mkLinkNode
    rw [splitAtChar_app '|' t.data s.data hwf.1]

theorem parse_serial_link (t : String) (x : Option String) (R inner : List Char)
    (hin : inner = t.data ++ match x with | none => [] | some s => '|' :: s.data)
    (hwf : WfL t x) :
    parseNodes ('[' :: '[' :: (inner ++ ']' :: ']' :: R)) = Node.link t x :: parseNodes R := by
  rw [parseNodes_step (findPair_cc '[' _)
      (findPair_append ']' inner R (wfL_inner_pairFree t x inner hin hwf)
        (wfL_inner_getLast t x inner hin hwf)),
    mkLinkNode_inner t x inner hin hwf, if_pos rfl, List.nil_append]

theorem parse_serial_text_link (s t : String) (x : Option String) (R inner : List Char)
    (hin : inner = t.data ++ match x with | none => [] | some sv => '|' :: sv.data)
    (hsne : s.data ≠ []) (hspf : pairFree '[' s.data) (hslast : s.data.getLast? ≠ some '[')
    (hwf : WfL t x) :
    parseNodes (s.data ++ '[' :: '[' :: (inner ++ ']' :: ']' :: R)) =
      Node.text s :: Node.link t x :: parseNodes R := by
  rw [parseNodes_step (findPair_append '[' s.data _ hspf hslast)
      (findPair_append ']' inner R (wfL_inner_pairFree t x inner hin hwf)
        (wfL_inner_getLast t x inner hin hwf)),
    mkLinkNode_inner t x inner hin hwf, if_neg hsne]
  rfl

theorem roundtrip : ∀ (ns : List Node), WfNs ns →
    parseNodes (serializeWikicode ns).data = ns := by
  intro ns h
  induction h with
  | nil => rfl
  | lastText s hne htail =>
    have hdata : (serializeWikicode [Node.text s]).data = s.data := by
      show ([Node.text s].map serializeNodeChars).flatten = s.data
      simp [serializeNodeChars]
    rw [hdata]
    have hsd : s.data ≠ [] := fun hh => hne (by cases s with | mk d => simp at hh; rw [hh])
    cases h1 : findPair '[' s.data with
    | none =>
      rw [parseNodes_no_open h1, if_neg hsd]
    | some pr =>
      obtain ⟨pre, rest⟩ := pr
      rw [parseNodes_no_close h1 (htail pre rest h1), if_neg hsd]
  | link t x rest hwf hrest ih =>
    rw [serial_link_cons, parse_serial_link t x _ _ rfl hwf, ih]
  | textLink s t x rest hsne hspf hslast hwf hrest ih =>
    have hsd : s.data ≠ [] := fun hh => hsne (by cases s with | mk d => simp at hh; rw [hh])
    rw [serializeWikicode_cons]
    show parseNodes (s.data ++ (serializeWikicode (Node.link t x :: rest)).data) = _
    rw [serial_link_cons, parse_serial_text_link s t x _ _ rfl hsd hspf hslast hwf, ih]

/-! ## Membership and reparse helpers for the invariant -/

theorem pipe_not_canonicalize {s : String} (h : '|' ∉ s.data) :
    '|' ∉ (canonicalize s).data := fun hm =>
  h ((mem_canonicalize (by decide) (by decide) (by decide) s).mp hm)

theorem pipe_mem_canonicalize {s : String} (h : '|' ∈ s.data) :
    '|' ∈ (canonicalize s).data :=
  (mem_canonicalize (by decide) (by decide) (by decide) s).mpr h

theorem mem_of_getLast? {c : Char} : ∀ {l : List Char}, l.getLast? = some c → c ∈ l := by
  intro l
  induction l with
  | nil => intro h; cases h
  | cons a rest ih =>
    intro h
    cases hr : rest with
    | nil =>
      rw [hr] at h
      have : a = c := by
        have h2 : some a = some c := h
        exact Option.some.injEq .. ▸ h2
      rw [this]
      exact List.mem_cons_self c _
    | cons b bs =>
      rw [hr] at h
      rw [List.getLast?_cons_cons] at h
      rw [← hr] at h
      rw [← hr]
      exact List.mem_cons_of_mem a (ih h)

theorem getLast?_ne_of_not_mem {c : Char} {l : List Char} (h : c ∉ l) :
    l.getLast? ≠ some c := fun hl => h (mem_of_getLast? hl)

theorem lookupStr_mem {m : List (String × String)} {k v : String}
    (h : lookupStr m k = some v) : ∃ p ∈ m, p.1 = k ∧ p.2 = v := by
  unfold lookupStr at h
  cases hf : m.find? (fun p => p.1 = k) with
  | none => rw [hf] at h; cases h
  | some p =>
    rw [hf] at h
    refine ⟨p, List.mem_of_find?_eq_some hf, ?_, ?_⟩
    · have := List.find?_some hf
      exact of_decide_eq_true this
    · exact Option.some.injEq .. ▸ h

theorem parseTitle_hash_section (cfg : Config) (s : String) :
    (parseTitle cfg ("#" ++ s)).sectionname = s := by
  rw [parseTitle_sectionname]
  have hd : ("#" ++ s).data = '#' :: s.data := rfl
  rw [hd]
  have h2 : splitAtChar '#' ('#' :: s.data) = ([], some s.data) := by
    unfold splitAtChar
    rw [if_pos rfl]
  rw [h2]
  rfl

theorem parseTitle_app_hash_section (cfg : Config) (v s : String) (hv : '#' ∉ v.data) :
    (parseTitle cfg (v ++ "#" ++ s)).sectionname = s := by
  rw [parseTitle_sectionname]
  have hd : (v ++ "#" ++ s).data = v.data ++ '#' :: s.data := by
    rw [String.data_append, String.data_append]
    simp
  rw [hd, splitAtChar_app '#' v.data s.data hv]
  rfl

theorem parseTitle_no_hash_section (cfg : Config) (v : String) (hv : '#' ∉ v.data) :
    (parseTitle cfg v).sectionname = "" := by
  rw [parseTitle_sectionname, splitAtChar_no '#' v.data hv]
  rfl

theorem secOk_of_sane {cfg : Config} {v : String} (hv : '#' ∉ v.data) :
    SecOk (parseTitle cfg v) := by
  refine ⟨?_, ?_, ?_⟩ <;> rw [parseTitle_no_hash_section cfg v hv]
  · exact pairFree_nil ']'
  · exact List.not_mem_nil '|'
  · simp

theorem secOk_init {cfg : Config} {t0 : String}
    (hbr : ']' ∉ t0.data) (hpipe : '|' ∉ t0.data) : SecOk (parseTitle cfg t0) :=
  ⟨pairFree_of_not_mem (sec_not_mem hbr), sec_not_mem hpipe,
    getLast?_ne_of_not_mem (sec_not_mem hbr)⟩

/-! ## Per-rule invariant preservation -/

theorem invL_pipe {wl : Wikilink} {tl : Title} (h : InvL wl tl) :
    InvL (collapse_whitespace_pipe wl) tl := by
  unfold collapse_whitespace_pipe
  cases hx : wl.text with
  | none => exact h
  | some x =>
    obtain ⟨⟨hp, hpf, _, hsome⟩, hsec⟩ := h
    obtain ⟨hx1, hx2⟩ := hsome x hx
    refine ⟨⟨?_, ?_, ?_, ?_⟩, hsec⟩
    · show '|' ∉ (rstrip wl.title).data
      exact not_mem_rstrip hp
    · show pairFree ']' (rstrip wl.title).data
      exact pairFree_rstrip hpf
    · intro hcon; exact absurd hcon (by simp)
    · intro s hs
      have hsl : lstrip x = s := Option.some.injEq .. ▸ hs
      rw [← hsl]
      exact ⟨pairFree_lstrip hx1, getLast?_lstrip hx2⟩

theorem invL_trivial {wl : Wikilink} {tl : Title} (h : InvL wl tl) :
    InvL (check_trivial wl) tl := by
  unfold check_trivial
  cases hx : wl.text with
  | none => exact h
  | some x =>
    show InvL (if canonicalize wl.title = canonicalize x
        then { title := x, text := none } else wl) tl
    by_cases hc : canonicalize wl.title = canonicalize x
    · rw [if_pos hc]
      obtain ⟨hx1, hx2⟩ := h.1.2.2.2 x hx
      have hpx : '|' ∉ x.data := by
        intro hm
        have h1 : '|' ∈ (canonicalize x).data := pipe_mem_canonicalize hm
        rw [← hc] at h1
        exact pipe_not_canonicalize h.1.1 h1
      exact ⟨⟨hpx, hx1, fun _ => hx2, fun s hs => absurd hs (by simp)⟩, h.2⟩
    · rw [if_neg hc]
      exact h

theorem invL_outer {full : List Node} {idx : Nat} {wl : Wikilink} {tl : Title}
    (hlink : ∃ t0 x0, full.get? idx = some (Node.link t0 x0))
    (h : InvL wl tl) : InvL (collapse_whitespace full idx wl) tl := by
  obtain ⟨t0, x0, hl⟩ := hlink
  have hnxt : getTextAt full (idx : Int) = none := by
    unfold getTextAt pyGet
    rw [if_pos (by omega)]
    have htn : ((idx : Int)).toNat = idx := by omega
    rw [htn, hl]
  unfold collapse_whitespace
  rw [hnxt]
  cases hprev : getTextAt full ((idx : Int) - 1) with
  | none => exact h
  | some p =>
    show InvL (if p.endsWith " " ∨ p.endsWith "\n"
        then { wl with title := lstrip wl.title } else wl) tl
    by_cases hws : p.endsWith " " ∨ p.endsWith "\n"
    · rw [if_pos hws]
      obtain ⟨⟨hp, hpf, hnone, hsome⟩, hsec⟩ := h
      refine ⟨⟨?_, ?_, ?_, ?_⟩, hsec⟩
      · show '|' ∉ (lstrip wl.title).data
        exact not_mem_lstrip hp
      · show pairFree ']' (lstrip wl.title).data
        exact pairFree_lstrip hpf
      · intro hcon
        show (lstrip wl.title).data.getLast? ≠ some ']'
        exact getLast?_lstrip (hnone hcon)
      · exact hsome
    · rw [if_neg hws]
      exact h

theorem pipe_mem_pagename (cfg : Config) (raw : String) (hT : WfTables cfg)
    (hmem : '|' ∈ (splitAtChar '#' raw.data).1) :
    '|' ∈ ((parseTitle cfg raw).pagename).data := by
  unfold parseTitle
  cases hc : splitAtChar ':' (splitAtChar '#' raw.data).1 with
  | mk pre rest =>
    cases rest with
    | none =>
      simp only [hc]
      exact pipe_mem_canonicalize hmem
    | some r =>
      simp only [hc]
      obtain ⟨hbase, hpren⟩ := splitAtChar_eq ':' _ pre r hc
      have hmem2 : '|' ∈ pre ∨ '|' ∈ r := by
        rw [hbase] at hmem
        rcases List.mem_append.mp hmem with hm | hm
        · exact Or.inl hm
        · rcases List.mem_cons.mp hm with h1 | h2
          · exact absurd h1 (by decide)
          · exact Or.inr h2
      by_cases h1 : strLower (canonicalize ⟨pre⟩) ∈ cfg.iwPrefixes
      · rw [if_pos h1]
        rcases hmem2 with hm | hm
        · exact absurd (mem_strLower_of_mem (by decide) (pipe_mem_canonicalize hm))
            (hT.2.2.2 _ h1).2.2.1
        · exact pipe_mem_canonicalize hm
      · rw [if_neg h1]
        by_cases h2 : canonicalize ⟨pre⟩ ∈ cfg.namespaces
        · rw [if_pos h2]
          rcases hmem2 with hm | hm
          · exact absurd (pipe_mem_canonicalize hm) (hT.2.2.1 _ h2).2.2.1
          · exact pipe_mem_canonicalize hm
        · rw [if_neg h2]
          exact pipe_mem_canonicalize hmem

theorem pipe_mem_fullpagename (cfg : Config) (raw : String) (hT : WfTables cfg)
    (hsec : (parseTitle cfg raw).sectionname = "") (hmem : '|' ∈ raw.data) :
    '|' ∈ ((parseTitle cfg raw).fullpagename).data := by
  have hbase : '|' ∈ (splitAtChar '#' raw.data).1 := by
    cases hq : (splitAtChar '#' raw.data).2 with
    | none =>
      have hfull : splitAtChar '#' raw.data = ((splitAtChar '#' raw.data).1, none) := by
        rw [← hq]
      obtain ⟨he, _⟩ := splitAtChar_none '#' raw.data _ hfull
      rw [he]
      exact hmem
    | some q =>
      have hfull : splitAtChar '#' raw.data = ((splitAtChar '#' raw.data).1, some q) := by
        rw [← hq]
      obtain ⟨he, _⟩ := splitAtChar_eq '#' raw.data _ q hfull
      have hqnil : q = [] := by
        have hs := parseTitle_sectionname cfg raw
        rw [hq] at hs
        rw [hs] at hsec
        exact congrArg String.data hsec
      rw [he, hqnil] at hmem
      rcases List.mem_append.mp hmem with hm | hm
      · exact hm
      · rcases List.mem_cons.mp hm with h1 | h2
        · exact absurd h1 (by decide)
        · exact absurd h2 (List.not_mem_nil _)
  have hp := pipe_mem_pagename cfg raw hT hbase
  have hpne : (parseTitle cfg raw).pagename ≠ "" := by
    intro hh
    rw [hh] at hp
    exact absurd hp (List.not_mem_nil _)
  unfold Title.fullpagename
  rw [if_neg hpne]
  by_cases hns : (parseTitle cfg raw).ns = ""
  · rw [if_pos hns]
    exact hp
  · rw [if_neg hns]
    rw [String.data_append]
    exact List.mem_append.mpr (Or.inr hp)

theorem pipe_free_of_fullpagename (cfg : Config) {xt : String} (hT : WfTables cfg)
    (hsec : (parseTitle cfg xt).sectionname = "")
    (hfp : '|' ∉ ((parseTitle cfg xt).fullpagename).data) : '|' ∉ xt.data :=
  fun hm => hfp (pipe_mem_fullpagename cfg xt hT hsec hm)

/-! ## Fire-case invariant helpers -/

theorem invL_relative_fire (cfg : Config) {wl : Wikilink} {tl : Title} (h : InvL wl tl) :
    InvL { wl with title := "#" ++ tl.sectionname }
      (parseTitle cfg ("#" ++ tl.sectionname)) := by
  obtain ⟨⟨hp, hpf, hnone, hsome⟩, hs1, hs2, hs3⟩ := h
  have hdata : ("#" ++ tl.sectionname).data = '#' :: tl.sectionname.data := rfl
  refine ⟨⟨?_, ?_, ?_, ?_⟩, ?_, ?_, ?_⟩
  · show '|' ∉ ("#" ++ tl.sectionname).data
    rw [hdata]
    intro hm
    rcases List.mem_cons.mp hm with h1 | h2
    · exact absurd h1 (by decide)
    · exact hs2 h2
  · show pairFree ']' ("#" ++ tl.sectionname).data
    rw [hdata]
    exact pairFree_cons_of_ne (by decide) hs1
  · intro _
    show ("#" ++ tl.sectionname).data.getLast? ≠ some ']'
    rw [hdata]
    cases hsd : tl.sectionname.data with
    | nil => simp
    | cons s0 ss =>
      rw [List.getLast?_cons_cons]
      rw [hsd] at hs3
      exact hs3
  · exact hsome
  · rw [parseTitle_hash_section]
    exact hs1
  · rw [parseTitle_hash_section]
    exact hs2
  · rw [parseTitle_hash_section]
    exact hs3

theorem invL_exact_fire (cfg : Config) {wl : Wikilink} {tl : Title} {xt : String}
    (hx : wl.text = some xt) (h : InvL wl tl) (hpipe : '|' ∉ xt.data) :
    InvL { title := xt, text := none } (parseTitle cfg xt) := by
  obtain ⟨hx1, hx2⟩ := h.1.2.2.2 xt hx
  exact ⟨⟨hpipe, hx1, fun _ => hx2, fun s hs => absurd hs (by simp)⟩,
    sec_pairFree hx1, sec_not_mem hpipe, sec_getLast hx2⟩

theorem invL_target_fire_nosec (cfg : Config) {wl : Wikilink} {tl : Title} {target : String}
    (h : InvL wl tl) (hsane : saneStr target) :
    InvL { wl with title := target } (parseTitle cfg target) := by
  refine ⟨⟨hsane.2.2.1, pairFree_of_not_mem hsane.2.1, ?_, h.1.2.2.2⟩,
    secOk_of_sane hsane.2.2.2⟩
  intro _
  exact getLast?_ne_of_not_mem hsane.2.1

theorem invL_target_fire_sec (cfg : Config) {wl : Wikilink} {tl : Title} {target : String}
    (h : InvL wl tl) (hsane : saneStr target) (hsec : tl.sectionname ≠ "") :
    InvL { wl with title := target ++ "#" ++ tl.sectionname }
      (parseTitle cfg (target ++ "#" ++ tl.sectionname)) := by
  obtain ⟨⟨hp, hpf, hnone, hsome⟩, hs1, hs2, hs3⟩ := h
  have hdata : (target ++ "#" ++ tl.sectionname).data =
      target.data ++ '#' :: tl.sectionname.data := by
    rw [String.data_append, String.data_append]
    simp
  have hsd : tl.sectionname.data ≠ [] := by
    intro hh
    apply hsec
    cases htl : tl.sectionname with
    | mk d =>
      rw [htl] at hh
      simp at hh
      rw [hh]
  refine ⟨⟨?_, ?_, ?_, ?_⟩, ?_, ?_, ?_⟩
  · show '|' ∉ (target ++ "#" ++ tl.sectionname).data
    rw [hdata]
    intro hm
    rcases List.mem_append.mp hm with hm1 | hm1
    · exact hsane.2.2.1 hm1
    · rcases List.mem_cons.mp hm1 with h1 | h2
      · exact absurd h1 (by decide)
      · exact hs2 h2
  · show pairFree ']' (target ++ "#" ++ tl.sectionname).data
    rw [hdata]
    exact pairFree_append (pairFree_of_not_mem hsane.2.1)
      (pairFree_cons_of_ne (by decide) hs1) (Or.inr (by simp))
  · intro _
    show (target ++ "#" ++ tl.sectionname).data.getLast? ≠ some ']'
    rw [hdata]
    have hns : ('#' :: tl.sectionname.data) ≠ [] := by simp
    rw [getLast?_append_of_ne_nil hns target.data]
    cases hsdd : tl.sectionname.data with
    | nil => exact absurd hsdd hsd
    | cons s0 ss =>
      rw [List.getLast?_cons_cons]
      rw [hsdd] at hs3
      exact hs3
  · exact hsome
  · rw [parseTitle_app_hash_section cfg target tl.sectionname hsane.2.2.2]
    exact hs1
  · rw [parseTitle_app_hash_section cfg target tl.sectionname hsane.2.2.2]
    exact hs2
  · rw [parseTitle_app_hash_section cfg target tl.sectionname hsane.2.2.2]
    exact hs3

theorem invL_relative (cfg : Config) {wl : Wikilink} {tl : Title} (sp : String)
    (h : InvL wl tl) :
    ∀ out, check_relative cfg wl tl sp = out → InvL out.1 out.2 := by
  intro out hout
  unfold check_relative at hout
  by_cases hg : tl.iw ≠ "" ∨ tl.sectionname = ""
  · rw [if_pos hg] at hout
    rw [← hout]
    exact h
  · rw [if_neg hg] at hout
    cases hr : lookupStr cfg.redirects tl.fullpagename with
    | none =>
      simp only [hr] at hout
      by_cases he : canonicalize sp = tl.fullpagename
      · rw [if_pos he] at hout
        rw [← hout]
        exact invL_relative_fire cfg h
      · rw [if_neg he] at hout
        rw [← hout]
        exact h
    | some target =>
      simp only [hr] at hout
      by_cases he : canonicalize sp =
          ({ parseTitle cfg target with sectionname := tl.sectionname } : Title).fullpagename
      · rw [if_pos he] at hout
        rw [← hout]
        exact invL_relative_fire cfg h
      · rw [if_neg he] at hout
        rw [← hout]
        exact h

theorem invL_exact (cfg : Config) {wl : Wikilink} {tl : Title} (hT : WfTables cfg)
    (h : InvL wl tl) :
    ∀ out, check_redirect_exact cfg wl tl = out → InvL out.1 out.2 := by
  intro out hout
  unfold check_redirect_exact at hout
  cases hx : wl.text with
  | none =>
    rw [hx] at hout
    rw [← hout]
    exact h
  | some xt =>
    simp only [hx] at hout
    by_cases hs : tl.sectionname ≠ "" ∨ (parseTitle cfg xt).sectionname ≠ ""
    · rw [if_pos hs] at hout
      rw [← hout]
      exact h
    · rw [if_neg hs] at hout
      have hsx : (parseTitle cfg xt).sectionname = "" := not_not.mp (not_or.mp hs).2
      cases hr1 : lookupStr cfg.redirects tl.fullpagename with
      | some t1 =>
        cases hr2 : lookupStr cfg.redirects (parseTitle cfg xt).fullpagename with
        | some t2 =>
          simp only [hr1, hr2] at hout
          by_cases he : t1 = t2
          · rw [if_pos he] at hout
            rw [← hout]
            obtain ⟨p, hpm, hpk, hpv⟩ := lookupStr_mem hr2
            have hkey : '|' ∉ ((parseTitle cfg xt).fullpagename).data := by
              rw [← hpk]
              exact (hT.1 p hpm).1.2.2.1
            exact invL_exact_fire cfg hx h (pipe_free_of_fullpagename cfg hT hsx hkey)
          · rw [if_neg he] at hout
            rw [← hout]
            exact h
        | none =>
          simp only [hr1, hr2] at hout
          by_cases he : t1 = (parseTitle cfg xt).fullpagename
          · rw [if_pos he] at hout
            rw [← hout]
            obtain ⟨p, hpm, hpk, hpv⟩ := lookupStr_mem hr1
            have hval : '|' ∉ ((parseTitle cfg xt).fullpagename).data := by
              rw [← he, ← hpv]
              exact (hT.1 p hpm).2.2.2.1
            exact invL_exact_fire cfg hx h (pipe_free_of_fullpagename cfg hT hsx hval)
          · rw [if_neg he] at hout
            rw [← hout]
            exact h
      | none =>
        cases hr2 : lookupStr cfg.redirects (parseTitle cfg xt).fullpagename with
        | some t2 =>
          simp only [hr1, hr2] at hout
          by_cases he : t2 = tl.fullpagename
          · rw [if_pos he] at hout
            rw [← hout]
            obtain ⟨p, hpm, hpk, hpv⟩ := lookupStr_mem hr2
            have hkey : '|' ∉ ((parseTitle cfg xt).fullpagename).data := by
              rw [← hpk]
              exact (hT.1 p hpm).1.2.2.1
            exact invL_exact_fire cfg hx h (pipe_free_of_fullpagename cfg hT hsx hkey)
          · rw [if_neg he] at hout
            rw [← hout]
            exact h
        | none =>
          simp only [hr1, hr2] at hout
          rw [← hout]
          exact h

theorem invL_cap (cfg : Config) {wl : Wikilink} {tl : Title} (hT : WfTables cfg)
    (h : InvL wl tl) :
    ∀ out, check_redirect_capitalization cfg wl tl = out → InvL out.1 out.2 := by
  intro out hout
  unfold check_redirect_capitalization at hout
  by_cases hi : cfg.interactive = false
  · rw [if_pos hi] at hout; rw [← hout]; exact h
  · rw [if_neg hi] at hout
    by_cases hw : tl.pagename = "Wpa supplicant"
    · rw [if_pos hw] at hout; rw [← hout]; exact h
    · rw [if_neg hw] at hout
      by_cases hf : tl.fullpagename ≠ ""
      · rw [if_pos hf] at hout
        cases hr : lookupStr cfg.redirects tl.fullpagename with
        | none =>
          simp only [hr] at hout
          rw [← hout]
          exact h
        | some target =>
          simp only [hr] at hout
          by_cases hc : strLower target = strLower tl.fullpagename
          · rw [if_pos hc] at hout
            obtain ⟨p, hpm, hpk, hpv⟩ := lookupStr_mem hr
            have hsane : saneStr target := by
              rw [← hpv]
              exact (hT.1 p hpm).2
            by_cases hsec : tl.sectionname ≠ ""
            · rw [if_pos hsec] at hout
              rw [← hout]
              exact invL_target_fire_sec cfg h hsane hsec
            · rw [if_neg hsec] at hout
              rw [← hout]
              exact invL_target_fire_nosec cfg h hsane
          · rw [if_neg hc] at hout
            rw [← hout]
            exact h
      · rw [if_neg hf] at hout; rw [← hout]; exact h

theorem invL_dt (cfg : Config) {wl : Wikilink} {tl : Title} (hT : WfTables cfg)
    (h : InvL wl tl) :
    ∀ out, check_displaytitle cfg wl tl = out → InvL out.1 out.2.1 := by
  intro out hout
  unfold check_displaytitle at hout
  by_cases hi : cfg.interactive = false
  · rw [if_pos hi] at hout; rw [← hout]; exact h
  · rw [if_neg hi] at hout
    by_cases hx : wl.text.isSome
    · rw [if_pos hx] at hout; rw [← hout]; exact h
    · rw [if_neg hx] at hout
      by_cases hiw : tl.iw ≠ ""
      · rw [if_pos hiw] at hout; rw [← hout]; exact h
      · rw [if_neg hiw] at hout
        by_cases hf : tl.fullpagename = ""
        · rw [if_pos hf] at hout; rw [← hout]; exact h
        · rw [if_neg hf] at hout
          cases hd : lookupStr cfg.displaytitles tl.fullpagename with
          | none =>
            simp only [hd] at hout
            rw [← hout]
            exact h
          | some dtv =>
            simp only [hd] at hout
            by_cases hcat : tl.ns = "Category"
            · rw [if_pos hcat] at hout; rw [← hout]; exact h
            · rw [if_neg hcat] at hout
              by_cases hw : tl.pagename = "Wpa supplicant"
              · rw [if_pos hw] at hout; rw [← hout]; exact h
              · rw [if_neg hw] at hout
                obtain ⟨p, hpm, hpk, hpv⟩ := lookupStr_mem hd
                have hsane : saneStr dtv := by
                  rw [← hpv]
                  exact (hT.2.1 p hpm).2
                by_cases hsec : tl.sectionname ≠ ""
                · rw [if_pos hsec] at hout
                  by_cases hne : wl.title.drop 1 ≠ (dtv ++ "#" ++ tl.sectionname).drop 1
                  · rw [if_pos hne] at hout
                    rw [← hout]
                    exact invL_target_fire_sec cfg h hsane hsec
                  · rw [if_neg hne] at hout; rw [← hout]; exact h
                · rw [if_neg hsec] at hout
                  by_cases hne : wl.title.drop 1 ≠ dtv.drop 1
                  · rw [if_pos hne] at hout
                    rw [← hout]
                    exact invL_target_fire_nosec cfg h hsane
                  · rw [if_neg hne] at hout; rw [← hout]; exact h

theorem invL_process {cfg : Config} (sp : String) {full : List Node} {idx : Nat}
    {wl : Wikilink}
    (hT : WfTables cfg)
    (hlink : ∃ t0 x0, full.get? idx = some (Node.link t0 x0))
    (hinv : InvL wl (parseTitle cfg wl.title)) :
    ∀ out, processWikilinkAt cfg sp full idx wl = out → WfL out.1.title out.1.text := by
  intro out hout
  unfold processWikilinkAt at hout
  simp only [] at hout
  by_cases hiw : (parseTitle cfg wl.title).iw ∈ cfg.interlanguage
  · rw [if_pos hiw] at hout
    rw [← hout]
    exact hinv.1
  · rw [if_neg hiw] at hout
    rw [← hout]
    exact (invL_outer hlink (invL_dt cfg hT (invL_cap cfg hT (invL_exact cfg hT
      (invL_relative cfg sp (invL_trivial (invL_pipe hinv)) _ rfl) _ rfl) _ rfl) _ rfl)).1

theorem update_page_go_wf (cfg : Config) (sp : String) (full : List Node)
    (hT : WfTables cfg) :
    ∀ {ms : List Node}, WfNs ms →
      ∀ k : Nat, (∀ j, full.get? (k + j) = ms.get? j) →
      (∀ n ∈ ms, TitleBracketFree n) →
      WfNs ((update_page_go cfg sp full k ms).map (fun p => p.1)) := by
  intro ms hwf
  induction hwf with
  | nil =>
    intro k _ _
    exact WfNs.nil
  | lastText s hne hfp =>
    intro k _ _
    exact WfNs.lastText s hne hfp
  | link t x rest hwl hrest ih =>
    intro k hsuf htbf
    simp only [update_page_go, List.map_cons]
    have hlink : full.get? k = some (Node.link t x) := hsuf 0
    have htb : TitleBracketFree (Node.link t x) := htbf _ (List.mem_cons_self _ _)
    have hinv : InvL ⟨t, x⟩ (parseTitle cfg t) := ⟨hwl, secOk_init htb.2 hwl.1⟩
    have hw := invL_process sp hT ⟨t, x, hlink⟩ hinv _ rfl
    refine WfNs.link _ _ _ hw (ih (k + 1) ?_ ?_)
    · intro j
      have h := hsuf (j + 1)
      rw [show k + (j + 1) = k + 1 + j from by omega] at h
      exact h
    · intro n hn
      exact htbf n (List.mem_cons_of_mem _ hn)
  | textLink s t x rest hne hfp hlast hwl hrest ih =>
    intro k hsuf htbf
    simp only [update_page_go, List.map_cons]
    have hlink : full.get? (k + 1) = some (Node.link t x) := hsuf 1
    have htb : TitleBracketFree (Node.link t x) :=
      htbf _ (List.mem_cons_of_mem _ (List.mem_cons_self _ _))
    have hinv : InvL ⟨t, x⟩ (parseTitle cfg t) := ⟨hwl, secOk_init htb.2 hwl.1⟩
    have hw := invL_process sp hT ⟨t, x, hlink⟩ hinv _ rfl
    refine WfNs.textLink s _ _ _ hne hfp hlast hw (ih (k + 2) ?_ ?_)
    · intro j
      have h := hsuf (j + 2)
      rw [show k + (j + 2) = k + 2 + j from by omega] at h
      exact h
    · intro n hn
      exact htbf n (List.mem_cons_of_mem _ (List.mem_cons_of_mem _ hn))

theorem textConcat_cons_text (s : String) (rest : List Node) :
    textConcat (Node.text s :: rest) = s.data ++ textConcat rest := rfl

theorem textConcat_cons_link (t : String) (x : Option String) (rest : List Node) :
    textConcat (Node.link t x :: rest) = textConcat rest := rfl

theorem go_textConcat (cfg : Config) (sp : String) (full : List Node) :
    ∀ (ms : List Node) (k : Nat),
      textConcat ((update_page_go cfg sp full k ms).map (fun p => p.1)) = textConcat ms := by
  intro ms
  induction ms with
  | nil => intro k; rfl
  | cons hd tl ih =>
    intro k
    cases hd with
    | text s =>
      simp only [update_page_go, List.map_cons, textConcat_cons_text]
      rw [ih]
    | link t x =>
      simp only [update_page_go, List.map_cons, textConcat_cons_link]
      exact ih (k + 1)

/-! ## Whitespace-stripping algebra -/

theorem dropWhile_idem (p : Char → Bool) (l : List Char) :
    (l.dropWhile p).dropWhile p = l.dropWhile p := by
  induction l with
  | nil => rfl
  | cons a t ih =>
    by_cases h : p a <;> simp [List.dropWhile_cons, h, ih]

theorem head?_dropWhile_false (p : Char → Bool) :
    ∀ (l : List Char) (a : Char), (l.dropWhile p).head? = some a → p a = false := by
  intro l
  induction l with
  | nil => intro a h; simp [List.dropWhile] at h
  | cons b t ih =>
    intro a h
    by_cases hb : p b
    · rw [List.dropWhile_cons, if_pos hb] at h
      exact ih a h
    · rw [List.dropWhile_cons, if_neg hb] at h
      simp only [List.head?_cons, Option.some.injEq] at h
      rw [← h]
      simp only [Bool.not_eq_true] at hb
      exact hb

theorem dropWhile_fix_of_head (p : Char → Bool) (l : List Char)
    (h : ∀ a, l.head? = some a → p a = false) : l.dropWhile p = l := by
  cases l with
  | nil => rfl
  | cons b t =>
    rw [List.dropWhile_cons, if_neg]
    rw [h b rfl]
    exact Bool.false_ne_true

theorem lstrip_lstrip (s : String) : lstrip (lstrip s) = lstrip s :=
  congrArg String.mk (dropWhile_idem Char.isWhitespace s.data)

theorem rstrip_rstrip (s : String) : rstrip (rstrip s) = rstrip s := by
  have h : rstripChars (rstripChars s.data) = rstripChars s.data := by
    unfold rstripChars
    rw [List.reverse_reverse, dropWhile_idem]
  exact congrArg String.mk h

theorem getLast?_rstrip_not_ws (s : String) :
    ∀ c, (rstrip s).data.getLast? = some c → c.isWhitespace = false := by
  intro c h
  have h2 : (s.data.reverse.dropWhile Char.isWhitespace).head? = some c := by
    rw [← List.getLast?_reverse]
    exact h
  exact head?_dropWhile_false _ _ _ h2

theorem rstrip_fix (s : String)
    (h : ∀ c, s.data.getLast? = some c → c.isWhitespace = false) : rstrip s = s := by
  have h2 : s.data.reverse.dropWhile Char.isWhitespace = s.data.reverse :=
    dropWhile_fix_of_head _ _ (fun a ha => h a (by rw [← List.head?_reverse]; exact ha))
  show (⟨(s.data.reverse.dropWhile Char.isWhitespace).reverse⟩ : String) = s
  rw [h2, List.reverse_reverse]

theorem lstrip_fix (s : String)
    (h : ∀ c, s.data.head? = some c → c.isWhitespace = false) : lstrip s = s := by
  have h2 := dropWhile_fix_of_head Char.isWhitespace s.data h
  show (⟨s.data.dropWhile Char.isWhitespace⟩ : String) = s
  rw [h2]

theorem rstrip_lstrip_of_fix {s : String} (h : rstrip s = s) :
    rstrip (lstrip s) = lstrip s := by
  apply rstrip_fix
  intro c hc
  have hd : (lstrip s).data = lstripChars s.data := rfl
  rw [hd] at hc
  have hni : lstripChars s.data ≠ [] := by
    intro hnil
    rw [hnil] at hc
    simp at hc
  have hs2 : s.data.getLast? = some c := by
    rw [lstripChars_suffix s.data, getLast?_append_of_ne_nil hni]
    exact hc
  exact getLast?_rstrip_not_ws s c (by rw [h]; exact hs2)

theorem lstrip_hash (s : String) : lstrip ("#" ++ s) = "#" ++ s := by
  apply lstrip_fix
  intro c hc
  have hd : ("#" ++ s).data = '#' :: s.data := rfl
  rw [hd] at hc
  simp only [List.head?_cons, Option.some.injEq] at hc
  rw [← hc]
  decide

theorem condStrip_idem (b : Bool) (s : String) :
    condStrip b (condStrip b s) = condStrip b s := by
  cases b with
  | false => rfl
  | true =>
    show lstrip (lstrip s) = lstrip s
    exact lstrip_lstrip s

theorem condStrip_fix {s : String} (h : lstrip s = s) (b : Bool) : condStrip b s = s := by
  cases b with
  | false => rfl
  | true => exact h

theorem rstrip_condStrip {s : String} (h : rstrip s = s) (b : Bool) :
    rstrip (condStrip b s) = condStrip b s := by
  cases b with
  | false => exact h
  | true => exact rstrip_lstrip_of_fix h

/-! ## Canonicalization and parsing ignore edge whitespace -/

theorem dropWhile_all_nil {p : Char → Bool} {m : List Char} (hm : ∀ a ∈ m, p a = true) :
    m.dropWhile p = [] := by
  induction m with
  | nil => rfl
  | cons a t ih =>
    rw [List.dropWhile_cons, if_pos (hm a (List.mem_cons_self a t))]
    exact ih (fun b hb => hm b (List.mem_cons_of_mem a hb))

theorem dropWhile_append_of_all {p : Char → Bool} {w : List Char} (m : List Char)
    (hw : ∀ a ∈ w, p a = true) : (w ++ m).dropWhile p = m.dropWhile p := by
  induction w with
  | nil => rfl
  | cons a t ih =>
    rw [List.cons_append, List.dropWhile_cons,
      if_pos (hw a (List.mem_cons_self a t))]
    exact ih (fun b hb => hw b (List.mem_cons_of_mem a hb))

theorem trimWsU_wsPrefix (w l : List Char) (hw : ∀ c ∈ w, isWsU c = true) :
    trimWsU (w ++ l) = trimWsU l := by
  have hwr : ∀ a ∈ w.reverse, isWsU a = true := fun a ha => hw a (List.mem_reverse.mp ha)
  unfold trimWsU dropWsU
  rw [List.reverse_append, List.dropWhile_append]
  by_cases he : (l.reverse.dropWhile isWsU).isEmpty
  · rw [if_pos he]
    rw [dropWhile_all_nil hwr]
    rw [List.isEmpty_iff.mp he]
  · rw [if_neg he]
    rw [List.reverse_append, List.reverse_reverse]
    rw [dropWhile_append_of_all _ hw]

theorem trimWsU_wsSuffix (l w : List Char) (hw : ∀ c ∈ w, isWsU c = true) :
    trimWsU (l ++ w) = trimWsU l := by
  unfold trimWsU dropWsU
  rw [List.reverse_append]
  rw [dropWhile_append_of_all _ (fun a ha => hw a (List.mem_reverse.mp ha))]

theorem canonicalize_wsPrefix (w l : List Char) (hw : ∀ c ∈ w, isWsU c = true) :
    canonicalize ⟨w ++ l⟩ = canonicalize ⟨l⟩ := by
  show (⟨upperFirst (squashWsU (trimWsU (w ++ l)))⟩ : String) = _
  rw [trimWsU_wsPrefix w l hw]
  rfl

theorem canonicalize_wsSuffix (l w : List Char) (hw : ∀ c ∈ w, isWsU c = true) :
    canonicalize ⟨l ++ w⟩ = canonicalize ⟨l⟩ := by
  show (⟨upperFirst (squashWsU (trimWsU (l ++ w)))⟩ : String) = _
  rw [trimWsU_wsSuffix l w hw]
  rfl

theorem ws_isWsU {c : Char} (h : c.isWhitespace = true) : isWsU c = true := by
  unfold isWsU
  rw [h]
  rfl

theorem canonicalize_lstrip (s : String) : canonicalize (lstrip s) = canonicalize s := by
  have hu : canonicalize ⟨s.data.takeWhile Char.isWhitespace ++ lstripChars s.data⟩ =
      canonicalize ⟨lstripChars s.data⟩ :=
    canonicalize_wsPrefix _ _ (fun c hc => ws_isWsU (List.mem_takeWhile_imp hc))
  have hs : canonicalize s = canonicalize ⟨s.data.takeWhile Char.isWhitespace ++ lstripChars s.data⟩ := by
    rw [← lstripChars_suffix s.data]
  rw [hs, hu]
  rfl

theorem canonicalize_rstrip (s : String) : canonicalize (rstrip s) = canonicalize s := by
  have hu : canonicalize ⟨rstripChars s.data ++ (s.data.reverse.takeWhile Char.isWhitespace).reverse⟩ =
      canonicalize ⟨rstripChars s.data⟩ :=
    canonicalize_wsSuffix _ _ (fun c hc =>
      ws_isWsU (List.mem_takeWhile_imp (List.mem_reverse.mp hc)))
  have hs : canonicalize s = canonicalize ⟨rstripChars s.data ++ (s.data.reverse.takeWhile Char.isWhitespace).reverse⟩ := by
    rw [← rstripChars_decomp s.data]
  rw [hs, hu]
  rfl

theorem parseTitle_wsPrefix (cfg : Config) (w r : List Char)
    (hw : ∀ c ∈ w, c.isWhitespace = true) :
    parseTitle cfg ⟨w ++ r⟩ = parseTitle cfg ⟨r⟩ := by
  have hwsU : ∀ c ∈ w, isWsU c = true := fun c hc => ws_isWsU (hw c hc)
  have hhash : '#' ∉ w := fun hm => absurd (hw _ hm) (by decide)
  have hcolon : ':' ∉ w := fun hm => absurd (hw _ hm) (by decide)
  unfold parseTitle
  cases hs : splitAtChar '#' r with
  | mk p1 p2 =>
    cases p2 with
    | none =>
      obtain ⟨hp1, hnm⟩ := splitAtChar_none '#' r p1 hs
      subst hp1
      have hs2 : splitAtChar '#' (w ++ p1) = (w ++ p1, none) :=
        splitAtChar_no '#' _ (by
          intro hm
          rcases List.mem_append.mp hm with h | h
          · exact hhash h
          · exact hnm h)
      simp only [hs2]
      cases hc : splitAtChar ':' p1 with
      | mk q1 q2 =>
        cases q2 with
        | some rest =>
          obtain ⟨hq, hnq⟩ := splitAtChar_eq ':' p1 q1 rest hc
          have hc2 : splitAtChar ':' (w ++ p1) = (w ++ q1, some rest) := by
            have h3 : w ++ p1 = (w ++ q1) ++ ':' :: rest := by
              rw [hq, List.append_assoc]
            rw [h3]
            exact splitAtChar_app ':' (w ++ q1) rest (by
              intro hm
              rcases List.mem_append.mp hm with h | h
              · exact hcolon h
              · exact hnq h)
          simp only [hc2]
          rw [canonicalize_wsPrefix w q1 hwsU]
          rw [canonicalize_wsPrefix w p1 hwsU]
        | none =>
          obtain ⟨hq1, hnq⟩ := splitAtChar_none ':' p1 q1 hc
          subst hq1
          have hc2 : splitAtChar ':' (w ++ q1) = (w ++ q1, none) :=
            splitAtChar_no ':' _ (by
              intro hm
              rcases List.mem_append.mp hm with h | h
              · exact hcolon h
              · exact hnq h)
          simp only [hc2]
          rw [canonicalize_wsPrefix w q1 hwsU]
    | some q =>
      obtain ⟨hp, hnp⟩ := splitAtChar_eq '#' r p1 q hs
      have hs2 : splitAtChar '#' (w ++ r) = (w ++ p1, some q) := by
        have h3 : w ++ r = (w ++ p1) ++ '#' :: q := by
          rw [hp, List.append_assoc]
        rw [h3]
        exact splitAtChar_app '#' (w ++ p1) q (by
          intro hm
          rcases List.mem_append.mp hm with h | h
          · exact hhash h
          · exact hnp h)
      simp only [hs2]
      cases hc : splitAtChar ':' p1 with
      | mk q1 q2 =>
        cases q2 with
        | some rest =>
          obtain ⟨hq, hnq⟩ := splitAtChar_eq ':' p1 q1 rest hc
          have hc2 : splitAtChar ':' (w ++ p1) = (w ++ q1, some rest) := by
            have h3 : w ++ p1 = (w ++ q1) ++ ':' :: rest := by
              rw [hq, List.append_assoc]
            rw [h3]
            exact splitAtChar_app ':' (w ++ q1) rest (by
              intro hm
              rcases List.mem_append.mp hm with h | h
              · exact hcolon h
              · exact hnq h)
          simp only [hc2]
          rw [canonicalize_wsPrefix w q1 hwsU]
          rw [canonicalize_wsPrefix w p1 hwsU]
        | none =>
          obtain ⟨hq1, hnq⟩ := splitAtChar_none ':' p1 q1 hc
          subst hq1
          have hc2 : splitAtChar ':' (w ++ q1) = (w ++ q1, none) :=
            splitAtChar_no ':' _ (by
              intro hm
              rcases List.mem_append.mp hm with h | h
              · exact hcolon h
              · exact hnq h)
          simp only [hc2]
          rw [canonicalize_wsPrefix w q1 hwsU]

theorem parseTitle_wsSuffix (cfg : Config) (r w : List Char)
    (hw : ∀ c ∈ w, c.isWhitespace = true) (hhr : '#' ∉ r) :
    parseTitle cfg ⟨r ++ w⟩ = parseTitle cfg ⟨r⟩ := by
  have hwsU : ∀ c ∈ w, isWsU c = true := fun c hc => ws_isWsU (hw c hc)
  have hhash : '#' ∉ w := fun hm => absurd (hw _ hm) (by decide)
  have hcolon : ':' ∉ w := fun hm => absurd (hw _ hm) (by decide)
  unfold parseTitle
  have hs : splitAtChar '#' r = (r, none) := splitAtChar_no '#' r hhr
  have hs2 : splitAtChar '#' (r ++ w) = (r ++ w, none) :=
    splitAtChar_no '#' _ (by
      intro hm
      rcases List.mem_append.mp hm with h | h
      · exact hhr h
      · exact hhash h)
  simp only [hs, hs2]
  cases hc : splitAtChar ':' r with
  | mk q1 q2 =>
    cases q2 with
    | some rest =>
      obtain ⟨hq, hnq⟩ := splitAtChar_eq ':' r q1 rest hc
      have hc2 : splitAtChar ':' (r ++ w) = (q1, some (rest ++ w)) := by
        have h3 : r ++ w = q1 ++ ':' :: (rest ++ w) := by
          rw [hq, List.append_assoc, List.cons_append]
        rw [h3]
        exact splitAtChar_app ':' q1 (rest ++ w) hnq
      simp only [hc2]
      rw [canonicalize_wsSuffix rest w hwsU]
      rw [canonicalize_wsSuffix r w hwsU]
    | none =>
      obtain ⟨hq1, hnq⟩ := splitAtChar_none ':' r q1 hc
      subst hq1
      have hc2 : splitAtChar ':' (q1 ++ w) = (q1 ++ w, none) :=
        splitAtChar_no ':' _ (by
          intro hm
          rcases List.mem_append.mp hm with h | h
          · exact hnq h
          · exact hcolon h)
      simp only [hc2]
      rw [canonicalize_wsSuffix q1 w hwsU]

theorem parseTitle_lstrip (cfg : Config) (u : String) :
    parseTitle cfg (lstrip u) = parseTitle cfg u := by
  have h := parseTitle_wsPrefix cfg (u.data.takeWhile Char.isWhitespace) (lstripChars u.data)
    (fun c hc => List.mem_takeWhile_imp hc)
  have hdata : u.data = u.data.takeWhile Char.isWhitespace ++ lstripChars u.data :=
    lstripChars_suffix u.data
  calc parseTitle cfg (lstrip u) = parseTitle cfg ⟨lstripChars u.data⟩ := rfl
    _ = parseTitle cfg ⟨u.data.takeWhile Char.isWhitespace ++ lstripChars u.data⟩ := h.symm
    _ = parseTitle cfg ⟨u.data⟩ := by rw [← hdata]
    _ = parseTitle cfg u := rfl

theorem parseTitle_rstrip (cfg : Config) (u : String)
    (hsec : (parseTitle cfg u).sectionname = "") :
    parseTitle cfg (rstrip u) = parseTitle cfg u := by
  cases hs : splitAtChar '#' u.data with
  | mk p1 p2 =>
    cases p2 with
    | none =>
      obtain ⟨hp1, hnm⟩ := splitAtChar_none '#' u.data p1 hs
      have hdata : u.data =
          rstripChars u.data ++ (u.data.reverse.takeWhile Char.isWhitespace).reverse :=
        rstripChars_decomp u.data
      have hw : ∀ c ∈ (u.data.reverse.takeWhile Char.isWhitespace).reverse,
          c.isWhitespace = true :=
        fun c hc => List.mem_takeWhile_imp (List.mem_reverse.mp hc)
      have hh2 : '#' ∉ rstripChars u.data := not_mem_rstrip hnm
      calc parseTitle cfg (rstrip u) = parseTitle cfg ⟨rstripChars u.data⟩ := rfl
        _ = parseTitle cfg ⟨rstripChars u.data ++
              (u.data.reverse.takeWhile Char.isWhitespace).reverse⟩ :=
          (parseTitle_wsSuffix cfg _ _ hw hh2).symm
        _ = parseTitle cfg ⟨u.data⟩ := by rw [← hdata]
        _ = parseTitle cfg u := rfl
    | some q =>
      have hq : q = [] := by
        have h1 : (parseTitle cfg u).sectionname = ⟨q⟩ := by
          rw [parseTitle_sectionname, hs]
          rfl
        rw [hsec] at h1
        have h2 := congrArg String.data h1
        exact h2.symm
      subst hq
      obtain ⟨hp, hnp⟩ := splitAtChar_eq '#' u.data p1 [] hs
      have hfix : rstrip u = u := rstrip_fix u (by
        intro c hc
        rw [hp] at hc
        rw [List.getLast?_concat] at hc
        simp only [Option.some.injEq] at hc
        rw [← hc]
        decide)
      rw [hfix]

/-! ## Pointwise evaluation of the pipeline stages -/

theorem pipe_none (T : String) : collapse_whitespace_pipe ⟨T, none⟩ = ⟨T, none⟩ := rfl

theorem pipe_some (T X : String) :
    collapse_whitespace_pipe ⟨T, some X⟩ = ⟨rstrip T, some (lstrip X)⟩ := rfl

theorem trivial_none (T : String) : check_trivial ⟨T, none⟩ = ⟨T, none⟩ := rfl

theorem trivial_fire {T X : String} (h : canonicalize T = canonicalize X) :
    check_trivial ⟨T, some X⟩ = ⟨X, none⟩ := by
  show (if canonicalize T = canonicalize X then (⟨X, none⟩ : Wikilink) else ⟨T, some X⟩) =
    ⟨X, none⟩
  rw [if_pos h]

theorem trivial_skip {T X : String} (h : ¬ canonicalize T = canonicalize X) :
    check_trivial ⟨T, some X⟩ = ⟨T, some X⟩ := by
  show (if canonicalize T = canonicalize X then (⟨X, none⟩ : Wikilink) else ⟨T, some X⟩) =
    ⟨T, some X⟩
  rw [if_neg h]

theorem relative_skip (cfg : Config) (wl : Wikilink) (tl : Title) (sp : String)
    (h : tl.iw ≠ "" ∨ tl.sectionname = "") :
    check_relative cfg wl tl sp = (wl, tl) := by
  unfold check_relative
  rw [if_pos h]

theorem relativeTarget_sectionname (cfg : Config) (tl : Title) :
    (relativeTarget cfg tl).sectionname = tl.sectionname := by
  unfold relativeTarget
  cases h : lookupStr cfg.redirects tl.fullpagename <;> simp only [h]

theorem relative_cases (cfg : Config) (wl : Wikilink) (tl : Title) (sp : String)
    (hg : ¬(tl.iw ≠ "" ∨ tl.sectionname = "")) :
    check_relative cfg wl tl sp =
      if canonicalize sp = (relativeTarget cfg tl).fullpagename then
        ({ wl with title := "#" ++ (relativeTarget cfg tl).sectionname },
          parseTitle cfg ("#" ++ (relativeTarget cfg tl).sectionname))
      else (wl, tl) := by
  unfold check_relative
  rw [if_neg hg]
  rfl

theorem exact_none (cfg : Config) (T : String) (tl : Title) :
    check_redirect_exact cfg ⟨T, none⟩ tl = (⟨T, none⟩, tl) := rfl

theorem exact_skip_sec (cfg : Config) (T X : String) (tl : Title)
    (h : tl.sectionname ≠ "" ∨ (parseTitle cfg X).sectionname ≠ "") :
    check_redirect_exact cfg ⟨T, some X⟩ tl = (⟨T, some X⟩, tl) := by
  unfold check_redirect_exact
  simp only []
  rw [if_pos h]

theorem exact_eval (cfg : Config) (T X : String) (tl : Title)
    (hs : ¬(tl.sectionname ≠ "" ∨ (parseTitle cfg X).sectionname ≠ "")) :
    check_redirect_exact cfg ⟨T, some X⟩ tl =
      (match lookupStr cfg.redirects tl.fullpagename,
             lookupStr cfg.redirects (parseTitle cfg X).fullpagename with
       | some t1, some t2 =>
         if t1 = t2 then (⟨X, none⟩, parseTitle cfg X) else (⟨T, some X⟩, tl)
       | some t1, none =>
         if t1 = (parseTitle cfg X).fullpagename then (⟨X, none⟩, parseTitle cfg X)
         else (⟨T, some X⟩, tl)
       | none, some t2 =>
         if t2 = tl.fullpagename then (⟨X, none⟩, parseTitle cfg X) else (⟨T, some X⟩, tl)
       | none, none => (⟨T, some X⟩, tl)) := by
  unfold check_redirect_exact
  simp only []
  rw [if_neg hs]

theorem cap_ni (cfg : Config) (hni : cfg.interactive = false) (wl : Wikilink) (tl : Title) :
    check_redirect_capitalization cfg wl tl = (wl, tl) := by
  unfold check_redirect_capitalization
  rw [if_pos hni]

theorem dt_ni (cfg : Config) (hni : cfg.interactive = false) (wl : Wikilink) (tl : Title) :
    check_displaytitle cfg wl tl = (wl, tl, []) := by
  unfold check_displaytitle
  rw [if_pos hni]

theorem collapse_eq (ns : List Node) (idx : Nat) (T : String) (x : Option String)
    (hnx : getTextAt ns (idx : Int) = none) :
    collapse_whitespace ns idx ⟨T, x⟩ = ⟨condStrip (prevStrip ns idx) T, x⟩ := by
  unfold collapse_whitespace
  simp only [hnx]
  cases hp : getTextAt ns ((idx : Int) - 1) with
  | none =>
    have hps : prevStrip ns idx = false := by
      unfold prevStrip
      rw [hp]
    simp only [hp, hps]
    rfl
  | some p =>
    by_cases hw : p.endsWith " " ∨ p.endsWith "\n"
    · have hps : prevStrip ns idx = true := by
        unfold prevStrip
        rw [hp]
        show (p.endsWith " " || p.endsWith "\n") = true
        rcases hw with h | h
        · rw [h]
          rfl
        · rw [h]
          exact Bool.or_true _
      simp only [hp, hps]
      rw [if_pos hw]
      rfl
    · have hps : prevStrip ns idx = false := by
        unfold prevStrip
        rw [hp]
        show (p.endsWith " " || p.endsWith "\n") = false
        rcases not_or.mp hw with ⟨h1, h2⟩
        simp only [Bool.not_eq_true] at h1 h2
        rw [h1, h2]
        rfl
      simp only [hp, hps]
      rw [if_neg hw]
      rfl

theorem process_il (cfg : Config) (sp : String) (full : List Node) (idx : Nat)
    (wl : Wikilink) (h : (parseTitle cfg wl.title).iw ∈ cfg.interlanguage) :
    processWikilinkAt cfg sp full idx wl = (wl, []) := by
  unfold processWikilinkAt
  simp only []
  rw [if_pos h]

theorem process_ni (cfg : Config) (sp : String) (full : List Node) (idx : Nat)
    (wl : Wikilink) (hni : cfg.interactive = false)
    (hil : (parseTitle cfg wl.title).iw ∉ cfg.interlanguage) :
    processWikilinkAt cfg sp full idx wl =
      (collapse_whitespace full idx
        (check_redirect_exact cfg
          (check_relative cfg (check_trivial (collapse_whitespace_pipe wl))
            (parseTitle cfg wl.title) sp).1
          (check_relative cfg (check_trivial (collapse_whitespace_pipe wl))
            (parseTitle cfg wl.title) sp).2).1, []) := by
  unfold processWikilinkAt
  simp only []
  rw [if_neg hil]
  simp only [cap_ni cfg hni, dt_ni cfg hni]

theorem relative_hash (cfg : Config) (s sp : String) :
    (check_relative cfg ⟨"#" ++ s, none⟩ (parseTitle cfg ("#" ++ s)) sp).1 =
      ⟨"#" ++ s, none⟩ := by
  by_cases hg : (parseTitle cfg ("#" ++ s)).iw ≠ "" ∨
      (parseTitle cfg ("#" ++ s)).sectionname = ""
  · rw [relative_skip cfg _ _ sp hg]
  · rw [relative_cases cfg _ _ sp hg]
    by_cases hc : canonicalize sp =
        (relativeTarget cfg (parseTitle cfg ("#" ++ s))).fullpagename
    · rw [if_pos hc]
      show ({ (⟨"#" ++ s, none⟩ : Wikilink) with
          title := "#" ++ (relativeTarget cfg (parseTitle cfg ("#" ++ s))).sectionname } :
            Wikilink) = ⟨"#" ++ s, none⟩
      rw [relativeTarget_sectionname, parseTitle_hash_section]
    · rw [if_neg hc]

theorem process_fixed_nosec (cfg : Config) (sp : String) (full : List Node) (idx : Nat)
    (Y : String) (hni : cfg.interactive = false)
    (hnx : getTextAt full (idx : Int) = none)
    (hsec : (parseTitle cfg Y).sectionname = "")
    (hfix : lstrip Y = Y) :
    (processWikilinkAt cfg sp full idx ⟨Y, none⟩).1 = ⟨Y, none⟩ := by
  by_cases hil : (parseTitle cfg (⟨Y, none⟩ : Wikilink).title).iw ∈ cfg.interlanguage
  · rw [process_il cfg sp full idx _ hil]
  · rw [process_ni cfg sp full idx _ hni hil]
    simp only [pipe_none, trivial_none,
      relative_skip cfg (⟨Y, none⟩ : Wikilink) (parseTitle cfg Y) sp (Or.inr hsec),
      exact_none, collapse_eq full idx Y none hnx, condStrip_fix hfix]

theorem process_fixed_hash (cfg : Config) (sp : String) (full : List Node) (idx : Nat)
    (s : String) (hni : cfg.interactive = false)
    (hnx : getTextAt full (idx : Int) = none) :
    (processWikilinkAt cfg sp full idx ⟨"#" ++ s, none⟩).1 = ⟨"#" ++ s, none⟩ := by
  by_cases hil : (parseTitle cfg ((⟨"#" ++ s, none⟩ : Wikilink)).title).iw ∈
      cfg.interlanguage
  · rw [process_il cfg sp full idx _ hil]
  · rw [process_ni cfg sp full idx _ hni hil]
    simp only [relative_hash cfg s sp, pipe_none, trivial_none, exact_none,
      collapse_eq full idx ("#" ++ s) none hnx, condStrip_fix (lstrip_hash s)]

theorem process_fixed_none (cfg : Config) (sp : String) (full' : List Node) (idx : Nat)
    (t : String) (B : Bool) (hni : cfg.interactive = false)
    (hnx' : getTextAt full' (idx : Int) = none) (hB : prevStrip full' idx = B)
    (hil : (parseTitle cfg t).iw ∉ cfg.interlanguage)
    (hrel : (check_relative cfg ⟨condStrip B t, none⟩ (parseTitle cfg t) sp).1 =
      ⟨condStrip B t, none⟩) :
    (processWikilinkAt cfg sp full' idx ⟨condStrip B t, none⟩).1 = ⟨condStrip B t, none⟩ := by
  have hpt : parseTitle cfg (condStrip B t) = parseTitle cfg t := by
    cases B
    · rfl
    · exact parseTitle_lstrip cfg t
  have hil' : (parseTitle cfg ((⟨condStrip B t, none⟩ : Wikilink)).title).iw ∉
      cfg.interlanguage := by
    show (parseTitle cfg (condStrip B t)).iw ∉ cfg.interlanguage
    rw [hpt]
    exact hil
  rw [process_ni cfg sp full' idx _ hni hil']
  simp only [pipe_none, trivial_none, hpt]
  simp only [hrel, exact_none]
  simp only [collapse_eq full' idx (condStrip B t) none hnx', hB, condStrip_idem]

theorem process_fixed_withtext (cfg : Config) (sp : String) (full' : List Node) (idx : Nat)
    (t x0 : String) (B : Bool) (hni : cfg.interactive = false)
    (hnx' : getTextAt full' (idx : Int) = none)
    (hB : prevStrip full' idx = B)
    (hsec0 : (parseTitle cfg t).sectionname = "")
    (hXsec : (parseTitle cfg (lstrip x0)).sectionname = "")
    (hil : (parseTitle cfg t).iw ∉ cfg.interlanguage)
    (htr : canonicalize (rstrip t) = canonicalize (lstrip x0) → False)
    (hexact : check_redirect_exact cfg ⟨rstrip t, some (lstrip x0)⟩ (parseTitle cfg t)
      = (⟨rstrip t, some (lstrip x0)⟩, parseTitle cfg t)) :
    (processWikilinkAt cfg sp full' idx ⟨condStrip B (rstrip t), some (lstrip x0)⟩).1
      = ⟨condStrip B (rstrip t), some (lstrip x0)⟩ := by
  have hpt : parseTitle cfg (condStrip B (rstrip t)) = parseTitle cfg t := by
    cases B
    · exact parseTitle_rstrip cfg t hsec0
    · show parseTitle cfg (lstrip (rstrip t)) = parseTitle cfg t
      rw [parseTitle_lstrip, parseTitle_rstrip cfg t hsec0]
  have hil' : (parseTitle cfg
      ((⟨condStrip B (rstrip t), some (lstrip x0)⟩ : Wikilink)).title).iw ∉
        cfg.interlanguage := by
    show (parseTitle cfg (condStrip B (rstrip t))).iw ∉ cfg.interlanguage
    rw [hpt]
    exact hil
  rw [process_ni cfg sp full' idx _ hni hil']
  have hrfix : rstrip (condStrip B (rstrip t)) = condStrip B (rstrip t) :=
    rstrip_condStrip (rstrip_rstrip t) B
  simp only [pipe_some, hrfix, lstrip_lstrip]
  have hcan : canonicalize (condStrip B (rstrip t)) = canonicalize (rstrip t) := by
    cases B
    · rfl
    · exact canonicalize_lstrip (rstrip t)
  have htr2 : ¬ canonicalize (condStrip B (rstrip t)) = canonicalize (lstrip x0) := by
    rw [hcan]
    exact htr
  simp only [trivial_skip htr2, hpt]
  simp only [relative_skip cfg
    (⟨condStrip B (rstrip t), some (lstrip x0)⟩ : Wikilink) (parseTitle cfg t) sp
    (Or.inr hsec0)]
  have hsneg : ¬((parseTitle cfg t).sectionname ≠ "" ∨
      (parseTitle cfg (lstrip x0)).sectionname ≠ "") := by
    rw [not_or]
    exact ⟨not_not_intro hsec0, not_not_intro hXsec⟩
  have hexact2 : check_redirect_exact cfg
      ⟨condStrip B (rstrip t), some (lstrip x0)⟩ (parseTitle cfg t)
      = (⟨condStrip B (rstrip t), some (lstrip x0)⟩, parseTitle cfg t) := by
    rw [exact_eval cfg (rstrip t) (lstrip x0) (parseTitle cfg t) hsneg] at hexact
    rw [exact_eval cfg (condStrip B (rstrip t)) (lstrip x0) (parseTitle cfg t) hsneg]
    cases hr1 : lookupStr cfg.redirects (parseTitle cfg t).fullpagename with
    | some v1 =>
      cases hr2 : lookupStr cfg.redirects (parseTitle cfg (lstrip x0)).fullpagename with
      | some v2 =>
        simp only [hr1, hr2] at hexact ⊢
        by_cases he : v1 = v2
        · rw [if_pos he] at hexact
          exact absurd (congrArg (fun p => p.1.text) hexact) (by simp)
        · rw [if_neg he]
      | none =>
        simp only [hr1, hr2] at hexact ⊢
        by_cases he : v1 = (parseTitle cfg (lstrip x0)).fullpagename
        · rw [if_pos he] at hexact
          exact absurd (congrArg (fun p => p.1.text) hexact) (by simp)
        · rw [if_neg he]
    | none =>
      cases hr2 : lookupStr cfg.redirects (parseTitle cfg (lstrip x0)).fullpagename with
      | some v2 =>
        simp only [hr1, hr2] at hexact ⊢
        by_cases he : v2 = (parseTitle cfg t).fullpagename
        · rw [if_pos he] at hexact
          exact absurd (congrArg (fun p => p.1.text) hexact) (by simp)
        · rw [if_neg he]
      | none =>
        simp only [hr1, hr2]
  simp only [hexact2]
  simp only [collapse_eq full' idx (condStrip B (rstrip t)) (some (lstrip x0)) hnx', hB,
    condStrip_idem]

theorem process_idem (cfg : Config) (sp : String) (full full' : List Node) (idx : Nat)
    (t : String) (x : Option String)
    (hni : cfg.interactive = false)
    (htexts : ∀ i : Int, getTextAt full' i = getTextAt full i)
    (hnx : getTextAt full (idx : Int) = none)
    (hgood : GoodNode cfg (Node.link t x)) :
    (processWikilinkAt cfg sp full' idx (processWikilinkAt cfg sp full idx ⟨t, x⟩).1).1
      = (processWikilinkAt cfg sp full idx ⟨t, x⟩).1 := by
  have hnx' : getTextAt full' (idx : Int) = none := by rw [htexts]; exact hnx
  have hps : prevStrip full' idx = prevStrip full idx := by
    unfold prevStrip
    rw [htexts]
  by_cases hil : (parseTitle cfg t).iw ∈ cfg.interlanguage
  · rw [process_il cfg sp full idx _ hil]
    exact congrArg Prod.fst (process_il cfg sp full' idx _ hil)
  · cases x with
    | none =>
      rw [process_ni cfg sp full idx _ hni hil]
      simp only [pipe_none, trivial_none]
      by_cases hg : (parseTitle cfg t).iw ≠ "" ∨ (parseTitle cfg t).sectionname = ""
      · simp only [relative_skip cfg (⟨t, none⟩ : Wikilink) (parseTitle cfg t) sp hg,
          exact_none, collapse_eq full idx t none hnx]
        exact process_fixed_none cfg sp full' idx t (prevStrip full idx) hni hnx' hps hil
          (by rw [relative_skip cfg _ _ sp hg])
      · rw [relative_cases cfg _ _ sp hg]
        by_cases hc : canonicalize sp = (relativeTarget cfg (parseTitle cfg t)).fullpagename
        · rw [if_pos hc]
          simp only [relativeTarget_sectionname, exact_none,
            collapse_eq full idx ("#" ++ (parseTitle cfg t).sectionname) none hnx,
            condStrip_fix (lstrip_hash (parseTitle cfg t).sectionname)]
          exact process_fixed_hash cfg sp full' idx (parseTitle cfg t).sectionname hni hnx'
        · rw [if_neg hc]
          simp only [exact_none, collapse_eq full idx t none hnx]
          exact process_fixed_none cfg sp full' idx t (prevStrip full idx) hni hnx' hps hil
            (by
              rw [relative_cases cfg _ _ sp hg]
              rw [if_neg hc])
    | some x0 =>
      obtain ⟨hsec0, hh0⟩ : (parseTitle cfg t).sectionname = "" ∧ '#' ∉ x0.data := hgood
      have hX : '#' ∉ (lstrip x0).data := not_mem_lstrip hh0
      have hXsec : (parseTitle cfg (lstrip x0)).sectionname = "" :=
        parseTitle_no_hash_section cfg _ hX
      have hXfix : lstrip (lstrip x0) = lstrip x0 := lstrip_lstrip x0
      rw [process_ni cfg sp full idx _ hni hil]
      simp only [pipe_some]
      by_cases htr : canonicalize (rstrip t) = canonicalize (lstrip x0)
      · simp only [trivial_fire htr,
          relative_skip cfg (⟨lstrip x0, none⟩ : Wikilink) (parseTitle cfg t) sp
            (Or.inr hsec0),
          exact_none, collapse_eq full idx (lstrip x0) none hnx, condStrip_fix hXfix]
        exact process_fixed_nosec cfg sp full' idx (lstrip x0) hni hnx' hXsec hXfix
      · simp only [trivial_skip htr,
          relative_skip cfg (⟨rstrip t, some (lstrip x0)⟩ : Wikilink) (parseTitle cfg t) sp
            (Or.inr hsec0)]
        have hsneg : ¬((parseTitle cfg t).sectionname ≠ "" ∨
            (parseTitle cfg (lstrip x0)).sectionname ≠ "") := by
          rw [not_or]
          exact ⟨not_not_intro hsec0, not_not_intro hXsec⟩
        rw [exact_eval cfg (rstrip t) (lstrip x0) (parseTitle cfg t) hsneg]
        cases hr1 : lookupStr cfg.redirects (parseTitle cfg t).fullpagename with
        | some v1 =>
          cases hr2 : lookupStr cfg.redirects (parseTitle cfg (lstrip x0)).fullpagename with
          | some v2 =>
            simp only [hr1, hr2]
            by_cases he : v1 = v2
            · rw [if_pos he]
              simp only [collapse_eq full idx (lstrip x0) none hnx, condStrip_fix hXfix]
              exact process_fixed_nosec cfg sp full' idx (lstrip x0) hni hnx' hXsec hXfix
            · rw [if_neg he]
              simp only [collapse_eq full idx (rstrip t) (some (lstrip x0)) hnx]
              exact process_fixed_withtext cfg sp full' idx t x0 (prevStrip full idx) hni
                hnx' hps hsec0 hXsec hil htr (by
                  rw [exact_eval cfg (rstrip t) (lstrip x0) (parseTitle cfg t) hsneg]
                  simp only [hr1, hr2]
                  rw [if_neg he])
          | none =>
            simp only [hr1, hr2]
            by_cases he : v1 = (parseTitle cfg (lstrip x0)).fullpagename
            · rw [if_pos he]
              simp only [collapse_eq full idx (lstrip x0) none hnx, condStrip_fix hXfix]
              exact process_fixed_nosec cfg sp full' idx (lstrip x0) hni hnx' hXsec hXfix
            · rw [if_neg he]
              simp only [collapse_eq full idx (rstrip t) (some (lstrip x0)) hnx]
              exact process_fixed_withtext cfg sp full' idx t x0 (prevStrip full idx) hni
                hnx' hps hsec0 hXsec hil htr (by
                  rw [exact_eval cfg (rstrip t) (lstrip x0) (parseTitle cfg t) hsneg]
                  simp only [hr1, hr2]
                  rw [if_neg he])
        | none =>
          cases hr2 : lookupStr cfg.redirects (parseTitle cfg (lstrip x0)).fullpagename with
          | some v2 =>
            simp only [hr1, hr2]
            by_cases he : v2 = (parseTitle cfg t).fullpagename
            · rw [if_pos he]
              simp only [collapse_eq full idx (lstrip x0) none hnx, condStrip_fix hXfix]
              exact process_fixed_nosec cfg sp full' idx (lstrip x0) hni hnx' hXsec hXfix
            · rw [if_neg he]
              simp only [collapse_eq full idx (rstrip t) (some (lstrip x0)) hnx]
              exact process_fixed_withtext cfg sp full' idx t x0 (prevStrip full idx) hni
                hnx' hps hsec0 hXsec hil htr (by
                  rw [exact_eval cfg (rstrip t) (lstrip x0) (parseTitle cfg t) hsneg]
                  simp only [hr1, hr2]
                  rw [if_neg he])
          | none =>
            simp only [hr1, hr2]
            simp only [collapse_eq full idx (rstrip t) (some (lstrip x0)) hnx]
            exact process_fixed_withtext cfg sp full' idx t x0 (prevStrip full idx) hni
              hnx' hps hsec0 hXsec hil htr (by
                rw [exact_eval cfg (rstrip t) (lstrip x0) (parseTitle cfg t) hsneg]
                simp only [hr1, hr2])

theorem getTextAt_link {full : List Node} {idx : Nat} {a : String} {b : Option String}
    (h : full.get? idx = some (Node.link a b)) : getTextAt full (idx : Int) = none := by
  unfold getTextAt pyGet
  rw [if_pos (by omega : (0 : Int) ≤ (idx : Int))]
  have htn : ((idx : Int)).toNat = idx := by omega
  rw [htn, h]

theorem go_get?_shape (cfg : Config) (sp : String) (full : List Node) :
    ∀ (ms : List Node) (k j : Nat),
      ((update_page_go cfg sp full k ms).map (fun p => p.1)).get? j = ms.get? j ∨
      (∃ a b a' b', ms.get? j = some (Node.link a b) ∧
        ((update_page_go cfg sp full k ms).map (fun p => p.1)).get? j =
          some (Node.link a' b')) := by
  intro ms
  induction ms with
  | nil =>
    intro k j
    left
    rfl
  | cons hd tl ih =>
    intro k j
    cases hd with
    | text s =>
      cases j with
      | zero =>
        left
        rfl
      | succ n => exact ih (k + 1) n
    | link a b =>
      cases j with
      | zero =>
        right
        exact ⟨a, b, (processWikilinkAt cfg sp full k ⟨a, b⟩).1.title,
          (processWikilinkAt cfg sp full k ⟨a, b⟩).1.text, rfl, rfl⟩
      | succ n => exact ih (k + 1) n

theorem go_getTextAt (cfg : Config) (sp : String) (ns : List Node) :
    ∀ i : Int,
      getTextAt ((update_page_go cfg sp ns 0 ns).map (fun p => p.1)) i = getTextAt ns i := by
  intro i
  have hlen : ((update_page_go cfg sp ns 0 ns).map (fun p => p.1)).length = ns.length := by
    rw [List.length_map, update_page_go_length]
  unfold getTextAt pyGet
  rw [hlen]
  by_cases h0 : (0 : Int) ≤ i
  · rw [if_pos h0, if_pos h0]
    rcases go_get?_shape cfg sp ns ns 0 i.toNat with h | ⟨a, b, a', b', h1, h2⟩
    · rw [h]
    · rw [h1, h2]
  · rw [if_neg h0, if_neg h0]
    by_cases h1 : (-i).toNat ≤ ns.length
    · rw [if_pos h1, if_pos h1]
      rcases go_get?_shape cfg sp ns ns 0 (ns.length - (-i).toNat) with h | ⟨a, b, a', b', h2, h3⟩
      · rw [h]
      · rw [h2, h3]
    · rw [if_neg h1, if_neg h1]

theorem go_get?_link (cfg : Config) (sp : String) (full : List Node) :
    ∀ (ms : List Node) (k j : Nat) (a : String) (b : Option String),
      ((update_page_go cfg sp full k ms).map (fun p => p.1)).get? j =
        some (Node.link a b) →
      ∃ t x, ms.get? j = some (Node.link t x) ∧
        Wikilink.mk a b = (processWikilinkAt cfg sp full (k + j) ⟨t, x⟩).1 := by
  intro ms
  induction ms with
  | nil =>
    intro k j a b h
    simp [update_page_go] at h
  | cons hd tl ih =>
    intro k j a b h
    cases hd with
    | text s =>
      cases j with
      | zero =>
        have h' : Node.text s = Node.link a b := Option.some.inj h
        cases h'
      | succ n =>
        obtain ⟨t, x, h1, h2⟩ := ih (k + 1) n a b h
        refine ⟨t, x, h1, ?_⟩
        rw [show k + (n + 1) = k + 1 + n from by omega]
        exact h2
    | link t0 x0 =>
      cases j with
      | zero =>
        have h' : Node.link (processWikilinkAt cfg sp full k ⟨t0, x0⟩).1.title
            (processWikilinkAt cfg sp full k ⟨t0, x0⟩).1.text = Node.link a b :=
          Option.some.inj h
        have hinj := h'
        rw [Node.link.injEq] at hinj
        refine ⟨t0, x0, rfl, ?_⟩
        show Wikilink.mk a b = (processWikilinkAt cfg sp full (k + 0) ⟨t0, x0⟩).1
        rw [← hinj.1, ← hinj.2]
        rfl
      | succ n =>
        obtain ⟨t, x, h1, h2⟩ := ih (k + 1) n a b h
        refine ⟨t, x, h1, ?_⟩
        rw [show k + (n + 1) = k + 1 + n from by omega]
        exact h2

theorem go_fixed (cfg : Config) (sp : String) (full' : List Node) :
    ∀ (ms : List Node) (k : Nat),
      (∀ j a b, ms.get? j = some (Node.link a b) →
        (processWikilinkAt cfg sp full' (k + j) ⟨a, b⟩).1 = ⟨a, b⟩) →
      (update_page_go cfg sp full' k ms).map (fun p => p.1) = ms := by
  intro ms
  induction ms with
  | nil =>
    intro k h
    rfl
  | cons hd tl ih =>
    intro k h
    cases hd with
    | text s =>
      simp only [update_page_go, List.map_cons]
      rw [ih (k + 1) (fun j a b hj => by
        have h2 := h (j + 1) a b hj
        rw [show k + (j + 1) = k + 1 + j from by omega] at h2
        exact h2)]
    | link a b =>
      simp only [update_page_go, List.map_cons]
      have h0 : (processWikilinkAt cfg sp full' k ⟨a, b⟩).1 = ⟨a, b⟩ := h 0 a b rfl
      simp only [h0]
      rw [ih (k + 1) (fun j a' b' hj => by
        have h2 := h (j + 1) a' b' hj
        rw [show k + (j + 1) = k + 1 + j from by omega] at h2
        exact h2)]

theorem update_page_idem (cfg : Config) (sp d : String)
    (hni : cfg.interactive = false) (hT : WfTables cfg) (hd : WfDoc d)
    (hg : GoodLinks cfg d) :
    update_page cfg sp (update_page cfg sp d) = update_page cfg sp d := by
  have hwfns' : WfNs ((update_page_go cfg sp (mwparse d) 0 (mwparse d)).map (fun p => p.1)) :=
    update_page_go_wf cfg sp (mwparse d) hT (wf_parse d.data) 0
      (fun j => by rw [Nat.zero_add]; rfl) hd
  have hrt : mwparse (update_page cfg sp d) =
      (update_page_go cfg sp (mwparse d) 0 (mwparse d)).map (fun p => p.1) :=
    roundtrip _ hwfns'
  have hM : update_page cfg sp (update_page cfg sp d) =
      serializeWikicode ((update_page_go cfg sp (mwparse (update_page cfg sp d)) 0
        (mwparse (update_page cfg sp d))).map (fun p => p.1)) := rfl
  rw [hM, hrt]
  have hfix : (update_page_go cfg sp
      ((update_page_go cfg sp (mwparse d) 0 (mwparse d)).map (fun p => p.1)) 0
      ((update_page_go cfg sp (mwparse d) 0 (mwparse d)).map (fun p => p.1))).map
        (fun p => p.1)
      = (update_page_go cfg sp (mwparse d) 0 (mwparse d)).map (fun p => p.1) := by
    apply go_fixed
    intro j a b hj
    obtain ⟨t, x, hj0, hE⟩ := go_get?_link cfg sp (mwparse d) (mwparse d) 0 j a b hj
    rw [Nat.zero_add] at hE
    rw [Nat.zero_add, hE]
    exact process_idem cfg sp (mwparse d) _ j t x hni (go_getTextAt cfg sp (mwparse d))
      (getTextAt_link hj0) (hg _ (List.get?_mem hj0))
  rw [hfix]
  rfl

/-! ## Claim theorems -/

/-- C5.  Trivial rule: for every link with display text present whose
canonical form equals the target's canonical form, the display text is
dropped and the remaining target is the old display text; otherwise the
link is unchanged — stated as equality with the rule written from the
spec's words, together with the spec's end-to-end example
`[[Foo|foo]] → [[foo]]`. -/
theorem trivial_rule_correct :
    (∀ wl : Wikilink, check_trivial wl = spec_trivial wl) ∧
    update_page cfgEmpty "Page" "[[Foo|foo]]" = "[[foo]]" := by
  constructor
  · intro wl
    unfold check_trivial spec_trivial
    cases hx : wl.text with
    | none => rfl
    | some x =>
      show (if canonicalize wl.title = canonicalize x
              then ({ title := x, text := none } : Wikilink) else wl) =
           (if canonicalize x = canonicalize wl.title
              then ({ title := x, text := none } : Wikilink) else wl)
      exact if_congr eq_comm rfl rfl
  · decide

/-- C4.  Relative rule: fires only when the parsed title carries a
section fragment and no interwiki prefix; the target resolved through
the Redirect Table (falling back to itself) is compared with the
canonical form of the current page's title, and exactly on equality the
target is rewritten to `#<section>` with the Title re-parsed — stated
as equality with the rule written from the spec's words, together with
the spec's end-to-end example: on page `Baz` with `Foo → Baz`,
`[[Foo#Sec]] → [[#Sec]]`. -/
theorem relative_rule_correct :
    (∀ (cfg : Config) (wl : Wikilink) (title : Title) (srcpage : String),
      check_relative cfg wl title srcpage = spec_relative cfg wl title srcpage) ∧
    update_page cfgBaz "Baz" "[[Foo#Sec]]" = "[[#Sec]]" := by
  constructor
  · intro cfg wl title srcpage
    unfold check_relative spec_relative
    by_cases hg : title.iw ≠ "" ∨ title.sectionname = ""
    · rw [if_pos hg, if_pos (Or.symm hg)]
    · rw [if_neg hg, if_neg (fun h => hg (Or.symm h))]
      cases hr : lookupStr cfg.redirects title.fullpagename with
      | none => exact if_congr eq_comm rfl rfl
      | some target => exact if_congr eq_comm rfl rfl
  · decide

/-- C3.  Redirect-exact rule: fires only when display text is present
and neither target nor display text carries a section fragment; when
both resolve through the Redirect Table to equal final targets, or
exactly one resolves and its final target equals the other's literal
full page name, the link collapses to a single-argument link whose
target is the old display text with the Title re-derived, and in every
other case it is unchanged — stated as equality with the rule written
from the spec's words, together with the spec's end-to-end example:
with `Foo → Baz` and `Bar → Baz`, `[[Foo|Bar]] → [[Bar]]`. -/
theorem redirect_exact_rule_correct :
    (∀ (cfg : Config) (wl : Wikilink) (title : Title),
      check_redirect_exact cfg wl title = spec_redirect_exact cfg wl title) ∧
    update_page cfgBaz "Page" "[[Foo|Bar]]" = "[[Bar]]" := by
  constructor
  · intro cfg wl title
    unfold check_redirect_exact spec_redirect_exact
    cases hx : wl.text with
    | none => rfl
    | some xt =>
      by_cases hs : title.sectionname ≠ "" ∨ (parseTitle cfg xt).sectionname ≠ ""
      · simp [hs]
      · simp only [if_neg hs]
        cases h1 : lookupStr cfg.redirects title.fullpagename with
        | none =>
          cases h2 : lookupStr cfg.redirects (parseTitle cfg xt).fullpagename with
          | none => simp
          | some t2 =>
            by_cases he : t2 = title.fullpagename <;> simp [he]
        | some t1 =>
          cases h2 : lookupStr cfg.redirects (parseTitle cfg xt).fullpagename with
          | none =>
            by_cases he : t1 = (parseTitle cfg xt).fullpagename <;> simp [he]
          | some t2 =>
            by_cases he : t1 = t2 <;> simp [he]
  · decide

/-- C6, counterexample.  The claim reads: in interactive mode, for
every link whose title has a non-empty full page name, if the Redirect
Table maps that full page name to a target differing from it only by
letter case then the rule rewrites the target.  The hard-coded
exemption at line 147 refutes it: with the case-variant redirect
`Wpa supplicant → WPA supplicant` and the link `[[wpa supplicant]]`,
every premise of the claim holds and yet the rule leaves the link
unchanged. -/
theorem redirect_capitalization_counterexample :
    cfgWpa.interactive = true ∧
    (parseTitle cfgWpa "wpa supplicant").fullpagename ≠ "" ∧
    lookupStr cfgWpa.redirects (parseTitle cfgWpa "wpa supplicant").fullpagename =
      some "WPA supplicant" ∧
    strLower "WPA supplicant" = strLower (parseTitle cfgWpa "wpa supplicant").fullpagename ∧
    check_redirect_capitalization cfgWpa { title := "wpa supplicant", text := none }
        (parseTitle cfgWpa "wpa supplicant") =
      ({ title := "wpa supplicant", text := none }, parseTitle cfgWpa "wpa supplicant") := by
  decide

/-- C6, amended.  Redirect-capitalization rule with the hard-coded
exemption made explicit: in interactive mode, for every link whose
title has a non-empty full page name and whose pagename is not
`Wpa supplicant`, a Redirect Table hit differing only by letter case
rewrites the target to the resolved form with the section fragment
appended back; in every other case, and always in non-interactive mode,
the rule modifies nothing — stated as equality with the amended rule
written from the spec's words. -/
theorem redirect_capitalization_amended (cfg : Config) (wl : Wikilink) (title : Title) :
    check_redirect_capitalization cfg wl title = spec_redirect_capitalization cfg wl title := by
  unfold check_redirect_capitalization spec_redirect_capitalization
  by_cases hi : cfg.interactive = false
  · rw [if_pos hi, if_pos (Or.inl hi)]
  · by_cases hp : title.pagename = "Wpa supplicant"
    · rw [if_neg hi, if_pos hp, if_pos (Or.inr (Or.inl hp))]
    · by_cases hf : title.fullpagename = ""
      · rw [if_neg hi, if_neg hp, if_neg (not_not_intro hf), if_pos (Or.inr (Or.inr hf))]
      · rw [if_neg hi, if_neg hp, if_pos hf,
          if_neg (fun h => h.elim hi (fun h2 => h2.elim hp hf))]
        cases hr : lookupStr cfg.redirects title.fullpagename with
        | none => rfl
        | some target => rfl

/-- C7.  Broken-link reporting: in interactive mode, when the
display-title rule reaches a link with no display text, no interwiki
prefix and a non-empty full page name that is absent from the
Display-Title Table, exactly one warning is reported and the link and
title are left unmutated; and one pass of the page processor always
yields a node for every input node, so the page's other links continue
to be processed. -/
theorem broken_link_report (cfg : Config) (wl : Wikilink) (title : Title)
    (srcpage : String) (ns : List Node)
    (hi : cfg.interactive = true) (hx : wl.text = none) (hiw : title.iw = "")
    (hf : title.fullpagename ≠ "")
    (hd : lookupStr cfg.displaytitles title.fullpagename = none) :
    check_displaytitle cfg wl title =
      (wl, title, ["wikilink to non-existing page: [[" ++ wl.title ++ "]]"]) ∧
    (update_page_nodes cfg srcpage ns).1.length = ns.length := by
  constructor
  · unfold check_displaytitle
    simp [hi, hx, hiw, hf, hd]
  · unfold update_page_nodes
    simp [update_page_go_length]

/-- Witness for `broken_link_report` at a concrete broken link inside a
two-link page. -/
theorem broken_link_report_witness :
    check_displaytitle cfgInteractive { title := "Foo", text := none }
        (parseTitle cfgInteractive "Foo") =
      ({ title := "Foo", text := none }, parseTitle cfgInteractive "Foo",
        ["wikilink to non-existing page: [[Foo]]"]) ∧
    (update_page_nodes cfgInteractive "Page"
        [Node.link "Foo" none, Node.text " and ", Node.link "Bar" none]).1.length = 3 :=
  broken_link_report cfgInteractive { title := "Foo", text := none }
    (parseTitle cfgInteractive "Foo") "Page"
    [Node.link "Foo" none, Node.text " and ", Node.link "Bar" none]
    rfl rfl (by decide) (by decide) (by decide)

/-- C8.  No-op safety: an edit-submission call is made if and only if
the processed content differs byte-wise from the original content. -/
theorem noop_safety (cfg : Config) (apiResult : Except String Unit) (srcpage text_old : String) :
    (process_page cfg apiResult srcpage text_old).attempted = true ↔
      update_page cfg srcpage text_old ≠ text_old := by
  unfold process_page edit_page
  by_cases h : text_old = update_page cfg srcpage text_old
  · rw [if_neg (not_not_intro h)]
    exact iff_of_false Bool.false_ne_true (fun hh => hh h.symm)
  · rw [if_pos h]
    cases apiResult with
    | ok v => exact iff_of_true rfl (fun hh => h hh.symm)
    | error e => exact iff_of_true rfl (fun hh => h hh.symm)

/-- C9, counterexample.  The claim says an `APIError` raised during
submission is caught, logged, and the page skipped.  It is caught and
the page is skipped, but nothing is logged: the handler is
`except APIError as e: pass`.  At a concrete conflicting submission the
log `_edit` emits is empty. -/
theorem edit_conflict_counterexample :
    (edit_page (Except.error "editconflict") "new text" "old text").attempted = true ∧
    (edit_page (Except.error "editconflict") "new text" "old text").raised = false ∧
    (edit_page (Except.error "editconflict") "new text" "old text").logged = [] := by
  decide

/-- C9, amended.  An edit-submission `APIError` is caught at the
per-page boundary and silently swallowed (not logged): the error never
escapes, every page of a batch run is still processed, and `_edit`
itself emits no log entry. -/
theorem edit_conflict_swallowed (cfg : Config) (isEnglish : String → Bool)
    (pages : List (String × String × Except String Unit)) :
    (∀ r ∈ process_allpages cfg isEnglish pages, r.raised = false ∧ r.logged = []) ∧
    (process_allpages cfg isEnglish pages).length =
      (pages.filter (fun p => isEnglish p.1)).length := by
  constructor
  · intro r hr
    unfold process_allpages at hr
    obtain ⟨p, _, hp⟩ := List.mem_map.mp hr
    subst hp
    unfold process_page edit_page
    by_cases h : p.2.1 = update_page cfg p.1 p.2.1
    · rw [if_neg (not_not_intro h)]
      exact ⟨rfl, rfl⟩
    · rw [if_pos h]
      cases p.2.2 with
      | ok v => exact ⟨rfl, rfl⟩
      | error e => exact ⟨rfl, rfl⟩
  · unfold process_allpages
    simp

/-- Witness for `edit_conflict_swallowed`: a one-page batch whose edit
submission raises an `APIError` still completes with nothing raised and
nothing logged. -/
theorem edit_conflict_swallowed_witness :
    (process_page cfgEmpty (Except.error "editconflict") "Page" "[[Foo|foo]]").raised = false ∧
    (process_page cfgEmpty (Except.error "editconflict") "Page" "[[Foo|foo]]").logged = [] :=
  (edit_conflict_swallowed cfgEmpty (fun _ => true)
      [("Page", "[[Foo|foo]]", Except.error "editconflict")]).1
    (process_page cfgEmpty (Except.error "editconflict") "Page" "[[Foo|foo]]")
    (by decide)

/-- C10.  Hard-coded exemption: for every link whose parsed pagename is
exactly `Wpa supplicant`, neither the redirect-capitalization rule nor
the display-title rule modifies the link or its title, whatever the
configuration and whatever else holds. -/
theorem wpa_supplicant_exempt (cfg : Config) (wl : Wikilink) (title : Title)
    (h : title.pagename = "Wpa supplicant") :
    check_redirect_capitalization cfg wl title = (wl, title) ∧
    (check_displaytitle cfg wl title).1 = wl ∧
    (check_displaytitle cfg wl title).2.1 = title := by
  refine ⟨?_, ?_⟩
  · unfold check_redirect_capitalization
    by_cases hi : cfg.interactive = false
    · simp [hi]
    · simp [hi, h]
  · unfold check_displaytitle
    refine ⟨?_, ?_⟩ <;>
      · split
        · rfl
        · split
          · rfl
          · split
            · rfl
            · split
              · rfl
              · split
                · rfl
                · split
                  · rfl
                  · simp [h]

/-- Witness for `wpa_supplicant_exempt` at a concrete link in an
interactive configuration whose Redirect Table would otherwise rewrite
it. -/
theorem wpa_supplicant_exempt_witness :
    check_redirect_capitalization cfgWpa { title := "wpa_supplicant", text := none }
        (parseTitle cfgWpa "wpa_supplicant") =
      ({ title := "wpa_supplicant", text := none }, parseTitle cfgWpa "wpa_supplicant") ∧
    (check_displaytitle cfgWpa { title := "wpa_supplicant", text := none }
        (parseTitle cfgWpa "wpa_supplicant")).1 = { title := "wpa_supplicant", text := none } ∧
    (check_displaytitle cfgWpa { title := "wpa_supplicant", text := none }
        (parseTitle cfgWpa "wpa_supplicant")).2.1 = parseTitle cfgWpa "wpa_supplicant" :=
  wpa_supplicant_exempt cfgWpa { title := "wpa_supplicant", text := none }
    (parseTitle cfgWpa "wpa_supplicant") (by decide)

/-- C2.  Meaning preservation: for every configuration whose lookup
tables hold page-name-shaped strings and every document whose link
targets are bracket-free (real markup parsers refuse brackets inside a
link target), stripping all link syntax from the input document and
from `update_page`'s output yields identical plain text — the pipeline
rewrites only the target and display-text fields of link nodes and
never alters content outside the link syntax. -/
theorem meaning_preservation (cfg : Config) (sp d : String)
    (hT : WfTables cfg) (hd : WfDoc d) :
    stripLinks (update_page cfg sp d) = stripLinks d := by
  have hgo : WfNs ((update_page_go cfg sp (mwparse d) 0 (mwparse d)).map (fun p => p.1)) :=
    update_page_go_wf cfg sp (mwparse d) hT (wf_parse d.data) 0
      (fun j => by rw [Nat.zero_add]; rfl) hd
  have h2 : mwparse (update_page cfg sp d) =
      (update_page_go cfg sp (mwparse d) 0 (mwparse d)).map (fun p => p.1) := roundtrip _ hgo
  calc stripLinks (update_page cfg sp d)
      = ⟨textConcat (mwparse (update_page cfg sp d))⟩ := rfl
    _ = ⟨textConcat ((update_page_go cfg sp (mwparse d) 0 (mwparse d)).map (fun p => p.1))⟩ := by
        rw [h2]
    _ = ⟨textConcat (mwparse d)⟩ := by rw [go_textConcat]
    _ = stripLinks d := rfl

/-- Witness for `meaning_preservation` at a concrete configuration and
document: the pipeline rewrites `[[Foo|foo]]` there, yet the stripped
plain text is unchanged. -/
theorem meaning_preservation_witness :
    WfTables cfgBaz ∧ WfDoc "See [[Foo|foo]] and [[Baz#Sec]]." ∧
      stripLinks (update_page cfgBaz "Baz" "See [[Foo|foo]] and [[Baz#Sec]].") =
        stripLinks "See [[Foo|foo]] and [[Baz#Sec]]." :=
  ⟨by decide, by decide,
    meaning_preservation cfgBaz "Baz" "See [[Foo|foo]] and [[Baz#Sec]]." (by decide) (by decide)⟩

/-- C1, amended.  Idempotence of the page processor holds in
non-interactive mode (the batch mode; the interactive-only
capitalization and display-title rules are off) for every configuration
whose lookup tables hold page-name-shaped strings and every document
whose link targets are bracket-free, provided each link carrying
display text points at a fragment-free target and its display text
contains no `#`: a second pass over the output makes no further
change.  Unconditionally the claim is false
(`idempotence_counterexample`): a link whose target carries both a
fragment and display text is relativized on the first pass and only
then collapsed by the trivial rule on the second. -/
theorem idempotence_amended (cfg : Config) (sp d : String)
    (hni : cfg.interactive = false) (hT : WfTables cfg) (hd : WfDoc d)
    (hg : GoodLinks cfg d) :
    update_page cfg sp (update_page cfg sp d) = update_page cfg sp d :=
  update_page_idem cfg sp d hni hT hd hg

/-- Witness for `idempotence_amended` at a concrete configuration and
document on which the first pass does rewrite both links
(`[[foo|Foo]]` collapses to `[[Foo]]` and `[[Baz#Sec]]` becomes
relative on page `Baz`). -/
theorem idempotence_amended_witness :
    cfgBaz.interactive = false ∧ WfTables cfgBaz ∧
      WfDoc "See [[foo|Foo]] and [[Baz#Sec]]." ∧
      GoodLinks cfgBaz "See [[foo|Foo]] and [[Baz#Sec]]." ∧
      update_page cfgBaz "Baz"
          (update_page cfgBaz "Baz" "See [[foo|Foo]] and [[Baz#Sec]].") =
        update_page cfgBaz "Baz" "See [[foo|Foo]] and [[Baz#Sec]]." :=
  ⟨rfl, by decide, by decide, by decide,
    idempotence_amended cfgBaz "Baz" "See [[foo|Foo]] and [[Baz#Sec]]." rfl
      (by decide) (by decide) (by decide)⟩

/-- C1, counterexample.  Idempotence fails: on page `Foo` the document
`[[Foo#Sec|#Sec]]` is first rewritten by the relative rule to
`[[#Sec|#Sec]]`, and on the second pass the trivial rule fires on that
output and collapses it further to `[[#Sec]]`, so the second pass
reports a change. -/
theorem idempotence_counterexample :
    update_page cfgEmpty "Foo" (update_page cfgEmpty "Foo" "[[Foo#Sec|#Sec]]") ≠
      update_page cfgEmpty "Foo" "[[Foo#Sec|#Sec]]" := by
  decide

end WikiScripts
